import Mathlib

/-!
Verification development for the file/folder sorting engine in `src/main.py`
(class `SortingThread`, class `UndoThread`).

Modeling conventions (shallow embedding):

* A filesystem path is a list of name components (`FsPath := List String`);
  `os.path.join(dir, name)` becomes `dir ++ [name]`.  Python applies
  `os.path.splitext` to whole path strings, but since the extension split
  only ever looks at the text after the last separator, we apply it to the
  last component, which is equivalent for `/`-joined paths.
* The filesystem is a pair of lists of paths (`files`, `dirs`), POSIX-style
  case-sensitive.  `shutil.move` failures caused by the environment
  (permissions, cross-device errors) are modeled by an oracle `moveFails`:
  the set of `(src, dst)` pairs on which the underlying move raises.  A
  failed move is modeled as a no-op on the filesystem, matching the spec's
  reading of the `except` handler.
* Python `set` iteration order is modeled as insertion order (deduplicated
  lists); `dict` iteration order is insertion order (true for CPython 3.7+).
  All properties proved below are insensitive to this choice.
* Python `sorted(..., reverse=True)` is a stable descending sort, modeled by
  a stable insertion sort.
* `int(processed_count / total_files * 100)` goes through binary floating
  point in Python; we model it as `processed_count * 100 / total_files` in
  `Nat`.  (The two can differ by 1 on some inputs; no claim below depends on
  the intermediate percentage values, only on the literal final
  `update_progress.emit(100)`.)
* `str.lower` is modeled by `Char.toLower` (ASCII); `str.strip` by `pyStrip`
  (ASCII whitespace).
* The Qt signals `update_progress`, `status_update`, `finished_signal` are
  modeled as accumulating event lists / a boolean in the engine state.
* Ghost instrumentation (not present in the Python, added for specification
  only, never read by the engine code itself): `attempts` records every call
  of `move_file_handling_conflicts`, `successes` records every move that the
  underlying `shutil.move` actually performed, `restores` records every
  restore attempted by `undo_sorting`, and `processed`/`processed_count`
  snapshot the run's local bookkeeping variables at the end of the loop.
* `difflib.SequenceMatcher(None, a, b).find_longest_match(0, len a, 0, len b)`
  is modeled including the `autojunk` heuristic: for `len b >= 200`,
  characters occurring more than `len b / 100 + 1` times in `b` are
  "popular" and excluded from the matching table; the four post-scan
  extension loops degenerate (with `isjunk = None` the junk set proper is
  empty) to one plain left and one plain right equality extension.
  The backward "longest matching suffix" dynamic program of difflib is
  modeled by the equivalent forward scan: maximize the matching run length
  over start pairs `(i, j)` in lexicographic order, updating on strict
  improvement, which selects the longest match that starts earliest in `a`,
  then earliest in `b` — exactly difflib's documented tie-break.
-/

set_option maxHeartbeats 4000000
set_option maxRecDepth 20000

/-! ## String utilities -/

/-- Python `os.path.splitext` for a single path component: split off the
extension at the last dot, unless every character before that dot is itself a
dot (leading dots do not start an extension). -/
def splitextName (s : String) : String × String :=
  let cs := s.data
  if '.' ∈ cs then
    let dotIdx := cs.length - 1 - cs.reverse.findIdx (· = '.')
    if (cs.take dotIdx).all (· = '.') then (s, "")
    else (String.mk (cs.take dotIdx), String.mk (cs.drop dotIdx))
  else (s, "")

/-- Python `str.lower`, restricted to ASCII (all inputs of interest are ASCII). -/
def lowerStr (s : String) : String :=
  String.mk (s.data.map Char.toLower)

/-- Decimal digits of `n`, most significant first, by fuel-structural
recursion (so that concrete terms reduce; `fuel ≥ n` always suffices). -/
def natDigitsAux : Nat → Nat → List Char
  | 0, _ => []
  | fuel + 1, n =>
    if n < 10 then [Nat.digitChar n]
    else natDigitsAux fuel (n / 10) ++ [Nat.digitChar (n % 10)]

/-- Python `str(n)` for a natural number (same digits as `toString`,
restated so that it reduces definitionally on concrete inputs). -/
def natToStr (n : Nat) : String := String.mk (natDigitsAux (n + 1) n)

/-- Python `str.strip` whitespace, ASCII part: space, tab, newline,
carriage return, vertical tab, form feed. -/
def isPyWhitespace (c : Char) : Bool :=
  c = ' ' || c = '\t' || c = '\n' || c = '\r' || c = '\x0b' || c = '\x0c'

/-- Python `str.strip()` (ASCII whitespace). -/
def pyStrip (s : String) : String :=
  String.mk (((s.data.dropWhile isPyWhitespace).reverse.dropWhile
    isPyWhitespace).reverse)

/-- One character of the class `[a-zA-Z0-9]`. -/
def isAlnumAscii (c : Char) : Bool :=
  ('a' ≤ c && c ≤ 'z') || ('A' ≤ c && c ≤ 'Z') || ('0' ≤ c && c ≤ '9')

/-- Python `re.search(r'[a-zA-Z0-9]{4,}', s)`: some position starts a run of
at least 4 consecutive ASCII alphanumeric characters. -/
def hasAlnumRun4 (cs : List Char) : Bool :=
  (List.range cs.length).any fun i => ((cs.drop i).take 4).length = 4 &&
    ((cs.drop i).take 4).all isAlnumAscii

/-! ## difflib model -/

/-- Length of the longest common prefix of two character lists. -/
def commonPrefixLen : List Char → List Char → Nat
  | a :: as, b :: bs => if a = b then commonPrefixLen as bs + 1 else 0
  | _, _ => 0

/-- Length of the longest matching run from the start of two character lists
that avoids "junk" characters on the `b` side (difflib's `b2j` never holds
positions of junk characters, so matches cannot pass through them). -/
def njPrefixLen (junk : List Char) : List Char → List Char → Nat
  | a :: as, b :: bs =>
    if a = b ∧ b ∉ junk then njPrefixLen junk as bs + 1 else 0
  | _, _ => 0

/-- The distinct characters of a list in first-occurrence order (the keys of
difflib's `b2j` dictionary). -/
def firstOccurrences : List Char → List Char → List Char
  | [], acc => acc.reverse
  | c :: cs, acc =>
    if c ∈ acc then firstOccurrences cs acc
    else firstOccurrences cs (c :: acc)

/-- difflib autojunk: for `b` of length ≥ 200, the characters appearing more
than `len b / 100 + 1` times are treated as popular and dropped from the
matching table. -/
def popularChars (b : List Char) : List Char :=
  if 200 ≤ b.length then
    (firstOccurrences b []).filter fun c => b.length / 100 + 1 < b.count c
  else []

/-- All start pairs `(i, j)` in scan order: `i` ascending, then `j`
ascending — difflib's update order (it updates `best` only on strict
improvement, so the earliest maximizer wins). -/
def scanPairs (alen blen : Nat) : List (Nat × Nat) :=
  (List.range alen).flatMap fun i => (List.range blen).map fun j => (i, j)

/-- Scan step of the core maximization: strict improvement only (earliest
maximizer wins). -/
def flmGo (a b junk : List Char) :
    List (Nat × Nat) → Nat × Nat × Nat → Nat × Nat × Nat
  | [], best => best
  | ij :: rest, best =>
    let k := njPrefixLen junk (a.drop ij.1) (b.drop ij.2)
    if best.2.2 < k then flmGo a b junk rest (ij.1, ij.2, k)
    else flmGo a b junk rest best

/-- The core maximization of `find_longest_match` (the `j2len` dynamic
program of difflib, reformulated as the equivalent forward scan). -/
def flmCore (a b : List Char) (junk : List Char) : Nat × Nat × Nat :=
  flmGo a b junk (scanPairs a.length b.length) (0, 0, 0)

/-- `SequenceMatcher(None, a, b).find_longest_match(0, |a|, 0, |b|)`:
the core scan followed by the two plain extension loops (with `isjunk = None`
the junk set proper is empty, so the two junk extension loops never fire and
the two non-junk extension loops reduce to plain equality extensions). -/
def find_longest_match (a b : List Char) : Nat × Nat × Nat :=
  let junk := popularChars b
  let best := flmCore a b junk
  let l := commonPrefixLen (a.take best.1).reverse (b.take best.2.1).reverse
  let besti := best.1 - l
  let bestj := best.2.1 - l
  let size := best.2.2 + l
  let r := commonPrefixLen (a.drop (besti + size)) (b.drop (bestj + size))
  (besti, bestj, size + r)

/-- `SortingThread.find_common_sequence` (src/main.py:36-53): strip the
extensions, lower-case, take the longest match per `SequenceMatcher`, accept
it only if it has length ≥ `min_length` (4) and contains a run of ≥ 4
consecutive alphanumeric characters. -/
def find_common_sequence (str1 str2 : String) (min_length : Nat := 4) :
    Option String :=
  let name1 := (lowerStr (splitextName str1).1).data
  let name2 := (lowerStr (splitextName str2).1).data
  let m := find_longest_match name1 name2
  if min_length ≤ m.2.2 then
    let common_str := (name1.drop m.1).take m.2.2
    if hasAlnumRun4 common_str then some (String.mk common_str) else none
  else none

/-! ## Similarity groups -/

/-- `itertools.combinations(files, 2)` in Python's order. -/
def combinations2 : List α → List (α × α)
  | [] => []
  | x :: xs => (xs.map fun y => (x, y)) ++ combinations2 xs

/-- Add a member to a group, keeping insertion order and modeling `set.add`
by deduplicated append. -/
def addMember (members : List String) (f : String) : List String :=
  if f ∈ members then members else members ++ [f]

/-- `groups[common].add(file1); groups[common].add(file2)` on the
insertion-ordered dictionary of groups. -/
def addToGroup (groups : List (String × List String)) (common f1 f2 : String) :
    List (String × List String) :=
  match groups with
  | [] => [(common, addMember (addMember [] f1) f2)]
  | (k, ms) :: rest =>
    if k = common then (k, addMember (addMember ms f1) f2) :: rest
    else (k, ms) :: addToGroup rest common f1 f2

/-- Sort key comparison for groups: `(len(members), len(key))`, compared
lexicographically. -/
def groupKeyLt (x y : String × List String) : Prop :=
  x.2.length < y.2.length ∨ (x.2.length = y.2.length ∧ x.1.length < y.1.length)

instance (x y : String × List String) : Decidable (groupKeyLt x y) := by
  unfold groupKeyLt; infer_instance

/-- Stable insertion step for a descending sort: place `a` before the first
element it is not strictly smaller than.  This reproduces Python's stable
`sorted(..., reverse=True)`. -/
def insertDesc (a : String × List String) :
    List (String × List String) → List (String × List String)
  | [] => [a]
  | b :: bs => if groupKeyLt a b then b :: insertDesc a bs else a :: b :: bs

/-- Stable descending sort by `(member count, key length)`. -/
def sortGroupsDesc (l : List (String × List String)) :
    List (String × List String) :=
  l.foldr insertDesc []

/-- `SortingThread.build_similarity_groups` (src/main.py:95-115). -/
def build_similarity_groups (files : List String) :
    List (String × List String) :=
  let groups := (combinations2 files).foldl
    (fun gs p =>
      match find_common_sequence p.1 p.2 with
      | some common => addToGroup gs common p.1 p.2
      | none => gs)
    []
  sortGroupsDesc groups

/-! ## Filesystem model -/

/-- An absolute path, as a list of components. -/
abbrev FsPath := List String

/-- A snapshot of the filesystem: the existing regular files, the existing
directories, and the oracle of externally-failing moves. -/
structure FS where
  files : List FsPath
  dirs : List FsPath
  moveFails : List (FsPath × FsPath)
  deriving Repr, DecidableEq

/-- `os.path.exists`. -/
def pathExists (fs : FS) (p : FsPath) : Prop := p ∈ fs.files ∨ p ∈ fs.dirs

instance (fs : FS) (p : FsPath) : Decidable (pathExists fs p) := by
  unfold pathExists; infer_instance

/-- All nonempty prefixes of a path (the chain of directories `os.makedirs`
has to ensure). -/
def pathPrefixes (p : FsPath) : List FsPath :=
  (List.range p.length).map fun i => p.take (i + 1)

/-- `os.makedirs(p, exist_ok=True)`: create every missing ancestor; raises
(`none`) whenever any prefix of `p` exists as a regular file (with
`exist_ok=True` the exception is suppressed only if the existing entry is a
directory). -/
def makedirs (fs : FS) (p : FsPath) : Option FS :=
  if (pathPrefixes p).any (· ∈ fs.files) then none
  else some { fs with dirs := fs.dirs ++ (pathPrefixes p).filter (· ∉ fs.dirs) }

/-- `shutil.move(src, dst)` for regular-file sources on one POSIX
filesystem: fails (`none` = raises, caught by callers) on the external
failure oracle or a missing source; when `dst` is an existing directory the
source is moved inside it (raising if that occupied); otherwise `os.rename`
silently replaces any regular file at `dst`. -/
def shutilMove (fs : FS) (src dst : FsPath) : Option FS :=
  if (src, dst) ∈ fs.moveFails then none
  else if src ∉ fs.files then none
  else if dst ∈ fs.dirs then
    let real := dst ++ [src.getLastD ""]
    if pathExists fs real then none
    else some { fs with files := real :: fs.files.erase src }
  else some { fs with files := dst :: (fs.files.erase src).erase dst }

/-- `os.listdir`-based listing of the regular files directly in `dir`
(`SortingThread.get_all_files`, src/main.py:55-58, applied to an arbitrary
directory). -/
def get_all_files (fs : FS) (dir : FsPath) : List String :=
  fs.files.filterMap fun p => if p.dropLast = dir then p.getLast? else none

/-- `os.listdir`: names of all entries (files, then directories) directly in
`dir`.  Real listing order is unspecified; nothing below depends on it. -/
def listdirNames (fs : FS) (dir : FsPath) : List String :=
  (fs.files.filterMap fun p => if p.dropLast = dir then p.getLast? else none) ++
  (fs.dirs.filterMap fun p => if p.dropLast = dir then p.getLast? else none)

/-- Render a path the way Python would show it inside a status message. -/
def pathToString (p : FsPath) : String := String.intercalate "/" p

/-! ## Engine state -/

/-- State of one `SortingThread` run, together with its observable events and
ghost instrumentation (see the header). -/
structure SortState where
  fs : FS
  moved_files : List (FsPath × FsPath)
  statuses : List String
  progress : List Nat
  finished : Bool
  processed : List String
  processed_count : Nat
  attempts : List (FsPath × FsPath)
  successes : List (FsPath × FsPath)
  restores : List (FsPath × FsPath)
  deriving Repr, DecidableEq

/-- The `-CF{i}` conflict name for a destination path: Python splits the
whole destination string with `os.path.splitext` and inserts `-CF{i}` before
the extension, which only ever rewrites the last component. -/
def cfPath (dst : FsPath) (i : Nat) : FsPath :=
  let (base, ext) := splitextName (dst.getLastD "")
  dst.dropLast ++ [base ++ "-CF" ++ natToStr i ++ ext]

/-- `SortingThread.move_file_handling_conflicts` (src/main.py:68-93).
Returns the updated state and the returned destination (`none` models the
Python `return None` on conflict exhaustion or on a caught move failure).
Note the faithful quirk: the `(src, final_dst)` record is appended to
`moved_files` *before* the move is attempted, so a failing `shutil.move`
still leaves a record. -/
def move_file_handling_conflicts (st : SortState) (src dst : FsPath) :
    SortState × Option FsPath :=
  let st := { st with attempts := st.attempts ++ [(src, dst)] }
  let probe : Option FsPath :=
    if pathExists st.fs dst then
      match (List.range' 1 99).find? (fun i => ¬ pathExists st.fs (cfPath dst i)) with
      | some i => some (cfPath dst i)
      | none => none
    else some dst
  match probe with
  | none =>
    ({ st with statuses :=
        st.statuses ++ ["Too many conflicts for " ++ pathToString dst] }, none)
  | some final_dst =>
    let st := { st with moved_files := st.moved_files ++ [(src, final_dst)] }
    match shutilMove st.fs src final_dst with
    | some fs2 =>
      ({ st with fs := fs2, successes := st.successes ++ [(src, final_dst)] },
        some final_dst)
    | none => (st, none)

/-! ## The sorting run -/

/-- Result of the grouping loop: normal exit, an uncaught exception inside
`run` (only `os.makedirs` can raise there), or fuel exhaustion of the model's
bounded recursion (proved unreachable below). -/
inductive LoopResult where
  | done (st : SortState)
  | crash (st : SortState)
  | fuelOut (st : SortState)
  deriving Repr, DecidableEq

/-- The characters Python replaces in a folder name (src/main.py:229). -/
def sanitizeChars : List Char := ['<', '>', '"', '/', '\\', '|', '?', '*']

/-- Folder-name sanitization: replace each character of `sanitizeChars`
by an underscore. -/
def sanitizeFolderName (s : String) : String :=
  String.mk (s.data.map fun c => if c ∈ sanitizeChars then '_' else c)

/-- One file of the winning group (src/main.py:236-244): skip it if already
processed or vanished, otherwise move it into the group folder and account
for it.  The accumulator is `(state, processed set, processed count)`. -/
def groupStep (root : FsPath) (folder_name : String) (total : Nat)
    (acc : SortState × List String × Nat) (file : String) :
    SortState × List String × Nat :=
  let (st, processed, count) := acc
  if file ∈ processed then acc
  else
    let src := root ++ [file]
    if pathExists st.fs src then
      let dst := root ++ [folder_name, file]
      let (st, _) := move_file_handling_conflicts st src dst
      let count := count + 1
      let st := { st with progress := st.progress ++ [count * 100 / total] }
      (st, processed ++ [file], count)
    else acc

/-- One leftover file of the "Miscellaneous" fallback (src/main.py:211-217). -/
def miscStep (root : FsPath) (total : Nat)
    (acc : SortState × List String × Nat) (file : String) :
    SortState × List String × Nat :=
  let (st, processed, count) := acc
  let src := root ++ [file]
  let dst := root ++ ["Miscellaneous", file]
  let (st, _) := move_file_handling_conflicts st src dst
  let count := count + 1
  let st := { st with progress := st.progress ++ [count * 100 / total] }
  (st, processed ++ [file], count)

/-- The `while True` grouping loop of `SortingThread.run`
(src/main.py:196-247), with explicit fuel for the model's recursion.  On
normal exit the local `processed_files` / `processed_count` are snapshotted
into the ghost fields of the state. -/
def sortLoop (root : FsPath) (total : Nat) :
    Nat → SortState → List String → Nat → LoopResult
  | 0, st, processed, count =>
    .fuelOut { st with processed := processed, processed_count := count }
  | fuel + 1, st, processed, count =>
    let remaining := (get_all_files st.fs root).filter (· ∉ processed)
    if remaining.isEmpty then
      .done { st with processed := processed, processed_count := count }
    else
      match build_similarity_groups remaining with
      | [] =>
        match makedirs st.fs (root ++ ["Miscellaneous"]) with
        | none => .crash { st with processed := processed, processed_count := count }
        | some fs2 =>
          let st := { st with fs := fs2 }
          let (st, processed, count) :=
            remaining.foldl (miscStep root total) (st, processed, count)
          .done { st with processed := processed, processed_count := count }
      | (common_str, file_set) :: _ =>
        let fn0 := pyStrip common_str
        let fn1 := if fn0 = "" then "Common_Group" else fn0
        let folder_name := sanitizeFolderName fn1
        match makedirs st.fs (root ++ [folder_name]) with
        | none => .crash { st with processed := processed, processed_count := count }
        | some fs2 =>
          let st := { st with fs := fs2 }
          let (st, processed, count) :=
            file_set.foldl (groupStep root folder_name total) (st, processed, count)
          let st := { st with progress := st.progress ++ [count * 100 / total] }
          sortLoop root total fuel st processed count

/-! ## Media classification -/

/-- Result of `process_media_files`: normal or an uncaught `os.makedirs`
exception. -/
inductive MediaResult where
  | ok (st : SortState)
  | crash (st : SortState)
  deriving Repr, DecidableEq

/-- The image extension table (src/main.py:120-122). -/
def image_extensions : List String :=
  [".jpg", ".jpeg", ".png", ".gif", ".webp", ".bmp", ".tiff", ".tif",
   ".heic", ".heif", ".svg", ".eps", ".ico", ".psd", ".xcf", ".raw",
   ".cr2", ".nef", ".arw", ".dng"]

/-- The video extension table (src/main.py:124-126). -/
def video_extensions : List String :=
  [".mp4", ".mkv", ".avi", ".mov", ".wmv", ".flv", ".webm", ".m4v",
   ".mpg", ".mpeg", ".3gp", ".rm", ".rmvb", ".vob", ".ts", ".mxf",
   ".ogv"]

/-- Python `f.lower().endswith(tuple_of_extensions)`. -/
def endsWithAny (name : String) (exts : List String) : Bool :=
  exts.any fun e => e.data.isSuffixOf (lowerStr name).data

/-- One media file move (the body of the per-file loops in
src/main.py:152-157 and 164-169). -/
def mediaStep (subdir : FsPath) (sub : String) (acc : SortState × Nat)
    (f : String) : SortState × Nat :=
  let (st, c) := acc
  let (st, _) := move_file_handling_conflicts st
    (subdir ++ [f]) (subdir ++ [sub, f])
  (st, c + 1)

/-- Move the listed media files of one subfolder into `sub` ("Images" or
"Videos"), counting every attempted file (src/main.py:149-172, one of the
two symmetric blocks).  `none` models an uncaught `os.makedirs` exception. -/
def mediaBlock (subdir : FsPath) (sub : String) (names : List String)
    (st : SortState) (cnt : Nat) : Option (SortState × Nat) :=
  if names.isEmpty then some (st, cnt)
  else
    match makedirs st.fs (subdir ++ [sub]) with
    | none => none
    | some fs2 =>
      some (names.foldl (mediaStep subdir sub) ({ st with fs := fs2 }, cnt))

/-- Process the list of subfolders (src/main.py:140-172), threading the
image and video counters. -/
def mediaGo (root : FsPath) : List String → SortState → Nat → Nat → MediaResult
  | [], st, ic, vc =>
    .ok (if 0 < ic ∨ 0 < vc then
      { st with statuses := st.statuses ++
          ["Sorted " ++ natToStr ic ++ " images and " ++ natToStr vc ++
           " videos within their group folders"] }
      else st)
  | item :: rest, st, ic, vc =>
    let subdir := root ++ [item]
    let files := get_all_files st.fs subdir
    let images := files.filter (fun f => endsWithAny f image_extensions)
    let videos := files.filter (fun f => endsWithAny f video_extensions)
    match mediaBlock subdir "Images" images st ic with
    | none => .crash st
    | some (st2, ic2) =>
      match mediaBlock subdir "Videos" videos st2 vc with
      | none => .crash st2
      | some (st3, vc2) => mediaGo root rest st3 ic2 vc2

/-- `SortingThread.process_media_files` (src/main.py:117-176): split the
direct files of every top-level subfolder (except ones named "Images" or
"Videos") into "Images"/"Videos" subfolders by extension. -/
def process_media_files (root : FsPath) (st : SortState) : MediaResult :=
  let subdirs := (listdirNames st.fs root).filter fun item =>
    decide ((root ++ [item]) ∈ st.fs.dirs) && item ≠ "Images" && item ≠ "Videos"
  mediaGo root subdirs st 0 0

/-! ## The full run -/

/-- Result of `SortingThread.run`. -/
inductive RunResult where
  | ok (st : SortState)
  | crash (st : SortState)
  | outOfFuel (st : SortState)
  deriving Repr, DecidableEq

/-- The state a run result carries, whatever the outcome. -/
def RunResult.state : RunResult → SortState
  | .ok st => st
  | .crash st => st
  | .outOfFuel st => st

/-- Is the outcome a normal completion? -/
def RunResult.isOk : RunResult → Bool
  | .ok _ => true
  | _ => false

/-- A fresh engine state over a filesystem (a newly constructed
`SortingThread`). -/
def initState (fs : FS) : SortState :=
  { fs := fs, moved_files := [], statuses := [], progress := [],
    finished := false, processed := [], processed_count := 0,
    attempts := [], successes := [], restores := [] }

/-- `SortingThread.run` (src/main.py:178-255). -/
def runSort (root : FsPath) (media_sort_enabled : Bool) (fs0 : FS) : RunResult :=
  let st0 := initState fs0
  let original_files := get_all_files fs0 root
  let total_files := original_files.length
  if total_files = 0 then
    .ok { st0 with
      statuses := st0.statuses ++ ["No files found in the directory"],
      finished := true }
  else
    let st0 := { st0 with
      statuses := st0.statuses ++ ["Phase 1: Grouping files by similarity..."] }
    match sortLoop root total_files (total_files + 1) st0 [] 0 with
    | .fuelOut st => .outOfFuel st
    | .crash st => .crash st
    | .done st =>
      let afterMedia :=
        if media_sort_enabled then
          process_media_files root
            { st with statuses := st.statuses ++ ["Phase 2: Sorting media files..."] }
        else .ok st
      match afterMedia with
      | .crash st => .crash st
      | .ok st =>
        .ok { st with progress := st.progress ++ [100], finished := true }

/-! ## Undo -/

/-- One record of the undo loop (src/main.py:260-270): if a file still
exists at the recorded current location, ensure the original's parent
directory, then move it back; every exception inside is caught and skipped. -/
def restoreOne (st : SortState) (rec : FsPath × FsPath) : SortState :=
  let original_path := rec.1
  let current_path := rec.2
  if pathExists st.fs current_path then
    let st := { st with restores := st.restores ++ [rec] }
    let parent := original_path.dropLast
    match (if pathExists st.fs parent then some st.fs else makedirs st.fs parent) with
    | none => st
    | some fs1 =>
      match shutilMove fs1 current_path original_path with
      | some fs2 => { st with fs := fs2 }
      | none => { st with fs := fs1 }
  else st

/-- Stable insertion step for sorting paths by length, descending (the
bottom-up order in which `os.walk(..., topdown=False)` yields
directories). -/
def insertLenDesc (a : FsPath) : List FsPath → List FsPath
  | [] => [a]
  | b :: bs => if a.length < b.length then b :: insertLenDesc a bs else a :: b :: bs

/-- Sort paths by length, descending. -/
def sortByLenDesc (l : List FsPath) : List FsPath := l.foldr insertLenDesc []

/-- The empty-folder pruning walk of `undo_sorting` (src/main.py:272-280):
visit every directory strictly below the root bottom-up and remove it if it
is empty. -/
def pruneEmptyDirs (root : FsPath) (fs : FS) : FS :=
  let ds := sortByLenDesc (fs.dirs.filter fun d =>
    d ≠ root && root.isPrefixOf d)
  ds.foldl
    (fun fs d =>
      if d ∈ fs.dirs ∧ (listdirNames fs d).isEmpty then
        { fs with dirs := fs.dirs.erase d }
      else fs)
    fs

/-- `SortingThread.undo_sorting` (src/main.py:257-282): replay the move log
in reverse (without clearing it), then prune empty directories below the
root. -/
def undo_sorting (root : FsPath) (st : SortState) : SortState :=
  let st1 := st.moved_files.reverse.foldl restoreOne st
  { st1 with fs := pruneEmptyDirs root st1.fs }

/-- `UndoThread.run` (src/main.py:292-298): run the undo, then emit the
finished signal (`undo_sorting` catches all its exceptions, so the signal is
always reached).  The boolean is the emitted finished signal. -/
def undoThreadRun (root : FsPath) (st : SortState) : SortState × Bool :=
  (undo_sorting root st, true)

/-- The state a media result carries, whatever the outcome. -/
def MediaResult.state : MediaResult → SortState
  | .ok st => st
  | .crash st => st

/-! ## Concrete scenarios -/

/-- A root whose group folder "abcd" already holds the destination of
`abcd1.x` and all 99 of its conflict candidates. -/
def fsExhaust : FS :=
  { files := [["R", "abcd1.x"], ["R", "abcd2.x"], ["R", "abcd", "abcd1.x"]] ++
      (List.range' 1 99).map
        (fun i => ["R", "abcd", "abcd1-CF" ++ natToStr i ++ ".x"]),
    dirs := [["R"], ["R", "abcd"]], moveFails := [] }

/-- A root holding a regular file whose name collides with the
"Miscellaneous" folder the undo pass recreates around it. -/
def fsMisc : FS :=
  { files := [["R", "Miscellaneous"], ["R", "Miscellaneous2.txt"],
      ["R", "zzzz"]],
    dirs := [["R"]], moveFails := [] }

/-- A plain root of three regular files with no name collisions. -/
def fsClean : FS :=
  { files := [["R", "abcd1.txt"], ["R", "abcd2.txt"], ["R", "zzzz"]],
    dirs := [["R"]], moveFails := [] }

/-- A root with a pre-existing subfolder holding an image. -/
def fsMedia : FS :=
  { files := [["R", "Old", "x.jpg"], ["R", "zzzz"]],
    dirs := [["R"], ["R", "Old"]], moveFails := [] }

/-- The same pre-existing subfolder, alone. -/
def fsMediaW : FS :=
  { files := [["R", "Old", "x.jpg"]],
    dirs := [["R"], ["R", "Old"]], moveFails := [] }

/-- A root whose only file is named exactly like the fallback folder. -/
def fsMiscFile : FS :=
  { files := [["R", "Miscellaneous"]], dirs := [["R"]], moveFails := [] }

/-- A destination and its first conflict candidate occupied, the rest
free. -/
def fsConflict : FS :=
  { files := [["R", "s.x"], ["R", "G", "x.txt"], ["R", "G", "x-CF1.txt"]],
    dirs := [["R"], ["R", "G"]], moveFails := [] }

/-- A filesystem whose failure oracle rejects the one move the engine will
try. -/
def fsMoveFail : FS :=
  { files := [["R", "a.txt"]], dirs := [["R"], ["R", "G"]],
    moveFails := [(["R", "a.txt"], ["R", "G", "a.txt"])] }

/-- One file already moved into a group folder. -/
def fsMoved : FS :=
  { files := [["R", "G", "a.txt"]], dirs := [["R"], ["R", "G"]],
    moveFails := [] }

/-- A root with one pre-existing empty subfolder and no files. -/
def fsEmptySub : FS :=
  { files := [], dirs := [["R"], ["R", "emptySub"]], moveFails := [] }

/-- An engine state holding one move record over `fsMoved`. -/
def stPreloaded : SortState :=
  { initState fsMoved with
    moved_files := [(["R", "a.txt"], ["R", "G", "a.txt"])] }

/-- A 200-character name that triggers difflib's autojunk heuristic. -/
def longName : String := String.mk (List.replicate 196 'z' ++ "XXXX".data)

/-- The state `runSort` reaches over `fsExhaust` (computed once; the
equality is proved in `exhaustRun_eq`). -/
def stExhaust : SortState :=
  { fs :=
      { files := [["R", "abcd", "abcd2.x"], ["R", "abcd1.x"],
            ["R", "abcd", "abcd1.x"]] ++
            (List.range' 1 99).map
              (fun i => ["R", "abcd", "abcd1-CF" ++ natToStr i ++ ".x"]),
        dirs := [["R"], ["R", "abcd"]], moveFails := [] },
    moved_files := [(["R", "abcd2.x"], ["R", "abcd", "abcd2.x"])],
    statuses := ["Phase 1: Grouping files by similarity...",
      "Too many conflicts for R/abcd/abcd1.x"],
    progress := [50, 100, 100, 100],
    finished := true,
    processed := ["abcd1.x", "abcd2.x"],
    processed_count := 2,
    attempts := [(["R", "abcd1.x"], ["R", "abcd", "abcd1.x"]),
      (["R", "abcd2.x"], ["R", "abcd", "abcd2.x"])],
    successes := [(["R", "abcd2.x"], ["R", "abcd", "abcd2.x"])],
    restores := [] }

/-- The state `runSort` reaches over `fsClean` (see `cleanRun_eq`). -/
def stCleanRun : SortState :=
  { fs :=
      { files := [["R", "Miscellaneous", "zzzz"],
            ["R", "abcd", "abcd2.txt"], ["R", "abcd", "abcd1.txt"]],
        dirs := [["R"], ["R", "abcd"], ["R", "Miscellaneous"]],
        moveFails := [] },
    moved_files := [(["R", "abcd1.txt"], ["R", "abcd", "abcd1.txt"]),
      (["R", "abcd2.txt"], ["R", "abcd", "abcd2.txt"]),
      (["R", "zzzz"], ["R", "Miscellaneous", "zzzz"])],
    statuses := ["Phase 1: Grouping files by similarity..."],
    progress := [33, 66, 66, 100, 100],
    finished := true,
    processed := ["abcd1.txt", "abcd2.txt", "zzzz"],
    processed_count := 3,
    attempts := [(["R", "abcd1.txt"], ["R", "abcd", "abcd1.txt"]),
      (["R", "abcd2.txt"], ["R", "abcd", "abcd2.txt"]),
      (["R", "zzzz"], ["R", "Miscellaneous", "zzzz"])],
    successes := [(["R", "abcd1.txt"], ["R", "abcd", "abcd1.txt"]),
      (["R", "abcd2.txt"], ["R", "abcd", "abcd2.txt"]),
      (["R", "zzzz"], ["R", "Miscellaneous", "zzzz"])],
    restores := [] }

/-- The state `runSort` reaches over `fsMisc` (see `miscRun_eq`). -/
def stMiscRun : SortState :=
  { fs :=
      { files := [["R", "Miscellaneous", "zzzz"],
            ["R", "miscellaneous", "Miscellaneous2.txt"],
            ["R", "miscellaneous", "Miscellaneous"]],
        dirs := [["R"], ["R", "miscellaneous"], ["R", "Miscellaneous"]],
        moveFails := [] },
    moved_files :=
      [(["R", "Miscellaneous"], ["R", "miscellaneous", "Miscellaneous"]),
        (["R", "Miscellaneous2.txt"],
          ["R", "miscellaneous", "Miscellaneous2.txt"]),
        (["R", "zzzz"], ["R", "Miscellaneous", "zzzz"])],
    statuses := ["Phase 1: Grouping files by similarity..."],
    progress := [33, 66, 66, 100, 100],
    finished := true,
    processed := ["Miscellaneous", "Miscellaneous2.txt", "zzzz"],
    processed_count := 3,
    attempts :=
      [(["R", "Miscellaneous"], ["R", "miscellaneous", "Miscellaneous"]),
        (["R", "Miscellaneous2.txt"],
          ["R", "miscellaneous", "Miscellaneous2.txt"]),
        (["R", "zzzz"], ["R", "Miscellaneous", "zzzz"])],
    successes :=
      [(["R", "Miscellaneous"], ["R", "miscellaneous", "Miscellaneous"]),
        (["R", "Miscellaneous2.txt"],
          ["R", "miscellaneous", "Miscellaneous2.txt"]),
        (["R", "zzzz"], ["R", "Miscellaneous", "zzzz"])],
    restores := [] }

/-- The state `runSort` reaches over `fsMedia` with media split enabled
(see `mediaRun_eq`). -/
def stMediaRun : SortState :=
  { fs :=
      { files := [["R", "Old", "Images", "x.jpg"],
            ["R", "Miscellaneous", "zzzz"]],
        dirs := [["R"], ["R", "Old"], ["R", "Miscellaneous"],
          ["R", "Old", "Images"]],
        moveFails := [] },
    moved_files := [(["R", "zzzz"], ["R", "Miscellaneous", "zzzz"]),
      (["R", "Old", "x.jpg"], ["R", "Old", "Images", "x.jpg"])],
    statuses := ["Phase 1: Grouping files by similarity...",
      "Phase 2: Sorting media files...",
      "Sorted 1 images and 0 videos within their group folders"],
    progress := [100, 100],
    finished := true,
    processed := ["zzzz"],
    processed_count := 1,
    attempts := [(["R", "zzzz"], ["R", "Miscellaneous", "zzzz"]),
      (["R", "Old", "x.jpg"], ["R", "Old", "Images", "x.jpg"])],
    successes := [(["R", "zzzz"], ["R", "Miscellaneous", "zzzz"]),
      (["R", "Old", "x.jpg"], ["R", "Old", "Images", "x.jpg"])],
    restores := [] }

/-- The state in which the run over `fsMiscFile` aborts (see
`miscFileRun_eq`). -/
def stMiscFileCrash : SortState :=
  { fs :=
      { files := [["R", "Miscellaneous"]], dirs := [["R"]],
        moveFails := [] },
    moved_files := [],
    statuses := ["Phase 1: Grouping files by similarity..."],
    progress := [],
    finished := false,
    processed := [],
    processed_count := 0,
    attempts := [],
    successes := [],
    restores := [] }

/-- The state the media pass reaches over a fresh engine on `fsMediaW`
(see `mediaWRun_eq`). -/
def stMediaWRun : SortState :=
  { fs :=
      { files := [["R", "Old", "Images", "x.jpg"]],
        dirs := [["R"], ["R", "Old"], ["R", "Old", "Images"]],
        moveFails := [] },
    moved_files := [(["R", "Old", "x.jpg"], ["R", "Old", "Images", "x.jpg"])],
    statuses := ["Sorted 1 images and 0 videos within their group folders"],
    progress := [],
    finished := false,
    processed := [],
    processed_count := 0,
    attempts := [(["R", "Old", "x.jpg"], ["R", "Old", "Images", "x.jpg"])],
    successes := [(["R", "Old", "x.jpg"], ["R", "Old", "Images", "x.jpg"])],
    restores := [] }

/-! ## Specification notions and invariants -/

/-- Number of move-log entries whose source is `p`. -/
def srcCount (l : List (FsPath × FsPath)) (p : FsPath) : Nat :=
  (l.filter fun r => r.1 = p).length

/-- A "Too many conflicts" status has been emitted. -/
def HasConflictStatus (st : SortState) : Prop :=
  ∃ s ∈ st.statuses, "Too many conflicts".data.isPrefixOf s.data = true

instance (st : SortState) : Decidable (HasConflictStatus st) := by
  unfold HasConflictStatus; infer_instance

/-- The claim's notion for C3: `p` is an unused `-CF{n}` candidate
(`1 ≤ n ≤ 99`) that is lexicographically smallest among the unused
candidates. -/
def IsLexFirstFreeCF (fs : FS) (dst p : FsPath) : Prop :=
  (∃ n, 1 ≤ n ∧ n ≤ 99 ∧ p = cfPath dst n) ∧ ¬ pathExists fs p ∧
  ∀ q, (∃ n, 1 ≤ n ∧ n ≤ 99 ∧ q = cfPath dst n) → ¬ pathExists fs q →
    ¬ (pathToString q < pathToString p)

/-- Well-formedness of one similarity group relative to the candidate file
set. -/
def GroupWF (files : List String) (g : String × List String) : Prop :=
  2 ≤ g.2.length ∧ g.2.Nodup ∧ g.2 ⊆ files

/-- The successful-move script relation: `MovesSpec l0 rs l1` says the move
log `rs` transforms the file set `l0` into `l1` by moves whose source
existed and whose destination was fresh at the time of the move. -/
inductive MovesSpec : List FsPath → List (FsPath × FsPath) → List FsPath → Prop
  | nil (l : List FsPath) : MovesSpec l [] l
  | snoc {l0 l1 : List FsPath} {rs : List (FsPath × FsPath)} {s c : FsPath} :
      MovesSpec l0 rs l1 → s ∈ l1 → c ∉ l1 →
      MovesSpec l0 (rs ++ [(s, c)]) (c :: l1.erase s)

/-- The filesystem part of the run invariant, preserved by both phases. -/
structure CoreInv (root : FsPath) (fs0 : FS) (st : SortState) : Prop where
  filesND : st.fs.files.Nodup
  moveFailsEq : st.fs.moveFails = fs0.moveFails
  dirsND : st.fs.dirs.Nodup
  dirsAppend : ∃ created : List FsPath, st.fs.dirs = fs0.dirs ++ created ∧
    ∀ d ∈ created, d ≠ root ∧ root <+: d
  rootPrefixes : ∀ q ∈ pathPrefixes root, q ∈ st.fs.dirs
  recParents : ∀ r ∈ st.moved_files, r.1.dropLast ∈ st.fs.dirs
  spec : fs0.moveFails = [] → MovesSpec fs0.files st.moved_files st.fs.files

/-- The grouping-phase invariant: bookkeeping of the loop relative to the
names `orig` that were directly under the root at run start. -/
structure LoopInv (root : FsPath) (fs0 : FS) (orig : List String)
    (st : SortState) (processed : List String) (count : Nat) : Prop where
  core : CoreInv root fs0 st
  rootFile_mem : ∀ f : String, (root ++ [f]) ∈ st.fs.files → f ∈ orig
  prND : processed.Nodup
  prSub : processed ⊆ orig
  cntEq : count = processed.length
  att_pr : ∀ f ∈ processed, srcCount st.attempts (root ++ [f]) = 1
  att_unpr : ∀ f ∈ orig, f ∉ processed →
    srcCount st.attempts (root ++ [f]) = 0 ∧ (root ++ [f]) ∈ st.fs.files
  recLe : ∀ p : FsPath, srcCount st.moved_files p ≤ srcCount st.attempts p
  recEq : ∀ p : FsPath, srcCount st.moved_files p < srcCount st.attempts p →
    HasConflictStatus st
  succLe : ∀ p : FsPath, srcCount st.successes p ≤ srcCount st.moved_files p
  stay : ∀ f ∈ orig, srcCount st.successes (root ++ [f]) = 0 →
    (root ++ [f]) ∈ st.fs.files

/-! ## Lemmas: common prefixes and the longest-match scan (claim C5) -/

theorem commonPrefixLen_le_length_left :
    ∀ u v : List Char, commonPrefixLen u v ≤ u.length := by
  intro u
  induction u with
  | nil => intro v; cases v <;> simp [commonPrefixLen]
  | cons a as ih =>
    intro v
    cases v with
    | nil => simp [commonPrefixLen]
    | cons b bs =>
      by_cases h : a = b
      · simp only [commonPrefixLen, if_pos h, List.length_cons,
          Nat.succ_le_succ_iff]
        exact ih bs
      · simp [commonPrefixLen, h]

theorem take_eq_of_le_commonPrefixLen :
    ∀ (u v : List Char) (n : Nat), n ≤ commonPrefixLen u v →
      u.take n = v.take n := by
  intro u
  induction u with
  | nil =>
    intro v n h
    cases v <;> simp [commonPrefixLen] at h <;> simp [h]
  | cons a as ih =>
    intro v n h
    cases v with
    | nil => simp [commonPrefixLen] at h; simp [h]
    | cons b bs =>
      by_cases hab : a = b
      · subst hab
        simp [commonPrefixLen] at h
        cases n with
        | zero => simp
        | succ m => simp [List.take_succ_cons, ih bs m (Nat.le_of_succ_le_succ h)]
      · simp [commonPrefixLen, hab] at h
        simp [h]

theorem le_commonPrefixLen_of_take_eq :
    ∀ (u v : List Char) (n : Nat), n ≤ u.length → u.take n = v.take n →
      n ≤ commonPrefixLen u v := by
  intro u
  induction u with
  | nil =>
    intro v n h _
    simp at h
    subst h
    exact Nat.zero_le _
  | cons a as ih =>
    intro v n hn ht
    cases n with
    | zero => exact Nat.zero_le _
    | succ m =>
      cases v with
      | nil => simp at ht
      | cons b bs =>
        simp [List.take_succ_cons] at ht
        obtain ⟨rfl, hts⟩ := ht
        have := ih bs m (Nat.le_of_succ_le_succ hn) hts
        simp [commonPrefixLen]
        omega

theorem njPrefixLen_nil_junk :
    ∀ u v : List Char, njPrefixLen [] u v = commonPrefixLen u v := by
  intro u
  induction u with
  | nil => intro v; cases v <;> simp [njPrefixLen, commonPrefixLen]
  | cons a as ih =>
    intro v
    cases v with
    | nil => simp [njPrefixLen, commonPrefixLen]
    | cons b bs => by_cases h : a = b <;> simp [njPrefixLen, commonPrefixLen, h, ih]

theorem flmGo_ge_acc (a b junk : List Char) :
    ∀ (l : List (Nat × Nat)) (best : Nat × Nat × Nat),
      best.2.2 ≤ (flmGo a b junk l best).2.2 := by
  intro l
  induction l with
  | nil => intro best; simp [flmGo]
  | cons ij rest ih =>
    intro best
    simp only [flmGo]
    split
    · rename_i h
      exact Nat.le_trans (Nat.le_of_lt h)
        (ih (ij.1, ij.2, njPrefixLen junk (a.drop ij.1) (b.drop ij.2)))
    · exact ih best

theorem flmGo_ge_mem (a b junk : List Char) :
    ∀ (l : List (Nat × Nat)) (best : Nat × Nat × Nat) (ij : Nat × Nat),
      ij ∈ l →
      njPrefixLen junk (a.drop ij.1) (b.drop ij.2) ≤ (flmGo a b junk l best).2.2 := by
  intro l
  induction l with
  | nil => intro _ _ h; simp at h
  | cons ij0 rest ih =>
    intro best ij hmem
    rcases List.mem_cons.mp hmem with h | h
    · subst h
      simp only [flmGo]
      split
      · rename_i hlt
        exact flmGo_ge_acc a b junk rest
          (ij.1, ij.2, njPrefixLen junk (a.drop ij.1) (b.drop ij.2))
      · rename_i hnlt
        exact Nat.le_trans (Nat.le_of_not_lt hnlt) (flmGo_ge_acc a b junk rest best)
    · simp only [flmGo]
      split
      · exact ih _ ij h
      · exact ih best ij h

theorem flmGo_achieved (a b junk : List Char) :
    ∀ (l : List (Nat × Nat)) (best : Nat × Nat × Nat),
      flmGo a b junk l best = best ∨
      ∃ ij ∈ l, flmGo a b junk l best =
        (ij.1, ij.2, njPrefixLen junk (a.drop ij.1) (b.drop ij.2)) := by
  intro l
  induction l with
  | nil => intro best; left; simp [flmGo]
  | cons ij0 rest ih =>
    intro best
    simp only [flmGo]
    split
    · rcases ih (ij0.1, ij0.2, njPrefixLen junk (a.drop ij0.1) (b.drop ij0.2)) with h | h
      · right; exact ⟨ij0, List.mem_cons_self _ _, h⟩
      · right
        obtain ⟨ij, hmem, heq⟩ := h
        exact ⟨ij, List.mem_cons_of_mem _ hmem, heq⟩
    · rcases ih best with h | h
      · left; exact h
      · right
        obtain ⟨ij, hmem, heq⟩ := h
        exact ⟨ij, List.mem_cons_of_mem _ hmem, heq⟩

theorem mem_scanPairs {alen blen i j : Nat} :
    (i, j) ∈ scanPairs alen blen ↔ i < alen ∧ j < blen := by
  simp [scanPairs]

theorem flmCore_achieved_or_init (a b : List Char) :
    flmCore a b [] = (0, 0, 0) ∨
    ((flmCore a b []).1 < a.length ∧ (flmCore a b []).2.1 < b.length ∧
      (flmCore a b []).2.2 =
        commonPrefixLen (a.drop (flmCore a b []).1) (b.drop (flmCore a b []).2.1)) := by
  rcases flmGo_achieved a b [] (scanPairs a.length b.length) (0, 0, 0) with h | h
  · left; exact h
  · right
    obtain ⟨ij, hmem, heq⟩ := h
    have hij : ij.1 < a.length ∧ ij.2 < b.length := by
      have := hmem
      rcases ij with ⟨i, j⟩
      exact mem_scanPairs.mp this
    unfold flmCore
    rw [heq]
    exact ⟨hij.1, hij.2, by simp [njPrefixLen_nil_junk]⟩

theorem flmCore_max (a b : List Char) {i j : Nat}
    (hi : i < a.length) (hj : j < b.length) :
    commonPrefixLen (a.drop i) (b.drop j) ≤ (flmCore a b []).2.2 := by
  have := flmGo_ge_mem a b [] (scanPairs a.length b.length) (0, 0, 0) (i, j)
    (mem_scanPairs.mpr ⟨hi, hj⟩)
  simpa [flmCore, njPrefixLen_nil_junk] using this

theorem flmCore_le_cpl (a b : List Char) :
    (flmCore a b []).2.2 ≤
      commonPrefixLen (a.drop (flmCore a b []).1) (b.drop (flmCore a b []).2.1) := by
  rcases flmCore_achieved_or_init a b with h | h
  · rw [h]; exact Nat.zero_le _
  · exact Nat.le_of_eq h.2.2

theorem flmCore_infix_max (a b t : List Char)
    (ht1 : t <:+: a) (ht2 : t <:+: b) : t.length ≤ (flmCore a b []).2.2 := by
  cases t with
  | nil => exact Nat.zero_le _
  | cons c ts =>
    obtain ⟨p1, s1, h1⟩ := ht1
    obtain ⟨p2, s2, h2⟩ := ht2
    have hda : a.drop p1.length = (c :: ts) ++ s1 := by
      rw [← h1, List.append_assoc, List.drop_left]
    have hdb : b.drop p2.length = (c :: ts) ++ s2 := by
      rw [← h2, List.append_assoc, List.drop_left]
    have hia : p1.length < a.length := by
      have := congrArg List.length h1
      simp [List.length_append] at this
      omega
    have hib : p2.length < b.length := by
      have := congrArg List.length h2
      simp [List.length_append] at this
      omega
    have hta : (a.drop p1.length).take (c :: ts).length = c :: ts := by
      rw [hda, List.take_left]
    have htb : (b.drop p2.length).take (c :: ts).length = c :: ts := by
      rw [hdb, List.take_left]
    have hlen : (c :: ts).length ≤ (a.drop p1.length).length := by
      rw [hda]; simp [List.length_append]
    have hle : (c :: ts).length ≤
        commonPrefixLen (a.drop p1.length) (b.drop p2.length) :=
      le_commonPrefixLen_of_take_eq _ _ _ hlen (by rw [hta, htb])
    exact Nat.le_trans hle (flmCore_max a b hia hib)

theorem rev_take_decomp (x : List Char) (l : Nat) :
    x = (x.reverse.drop l).reverse ++ (x.reverse.take l).reverse := by
  conv_lhs => rw [← List.reverse_reverse x]
  rw [← List.reverse_append, List.take_append_drop]

theorem find_longest_match_eq_core (a b : List Char)
    (hpop : popularChars b = []) :
    find_longest_match a b = flmCore a b [] := by
  unfold find_longest_match
  rw [hpop]
  dsimp only
  rcases hbest : flmCore a b [] with ⟨i, j, k⟩
  dsimp only
  have hk_le : k ≤ commonPrefixLen (a.drop i) (b.drop j) := by
    have := flmCore_le_cpl a b
    rw [hbest] at this
    exact this
  have hsa : (a.drop i).take k = (b.drop j).take k :=
    take_eq_of_le_commonPrefixLen _ _ _ hk_le
  have hslen : ((a.drop i).take k).length = k := by
    rw [List.length_take]
    exact Nat.min_eq_left
      (Nat.le_trans hk_le (commonPrefixLen_le_length_left _ _))
  -- the left extension is empty
  have hl0 : commonPrefixLen (a.take i).reverse (b.take j).reverse = 0 := by
    set l := commonPrefixLen (a.take i).reverse (b.take j).reverse with hl
    set u := ((a.take i).reverse.take l).reverse with hu
    have hul : u.length = l := by
      rw [hu, List.length_reverse, List.length_take]
      exact Nat.min_eq_left
        (Nat.le_trans (Nat.le_of_eq hl.symm)
          (commonPrefixLen_le_length_left _ _))
    have huu : ((b.take j).reverse.take l).reverse = u := by
      rw [hu]
      congr 1
      exact (take_eq_of_le_commonPrefixLen _ _ _ (Nat.le_of_eq hl)).symm
    have hwa : (u ++ (a.drop i).take k) <:+: a := by
      refine ⟨((a.take i).reverse.drop l).reverse, (a.drop i).drop k, ?_⟩
      calc ((a.take i).reverse.drop l).reverse ++
            (u ++ (a.drop i).take k) ++ (a.drop i).drop k
          = (((a.take i).reverse.drop l).reverse ++ u) ++
            ((a.drop i).take k ++ (a.drop i).drop k) := by
            simp [List.append_assoc]
        _ = a.take i ++ a.drop i := by
            rw [List.take_append_drop]
            congr 1
            exact (rev_take_decomp (a.take i) l).symm
        _ = a := List.take_append_drop _ _
    have hwb : (u ++ (a.drop i).take k) <:+: b := by
      refine ⟨((b.take j).reverse.drop l).reverse, (b.drop j).drop k, ?_⟩
      calc ((b.take j).reverse.drop l).reverse ++
            (u ++ (a.drop i).take k) ++ (b.drop j).drop k
          = (((b.take j).reverse.drop l).reverse ++ u) ++
            (((a.drop i).take k) ++ (b.drop j).drop k) := by
            simp [List.append_assoc]
        _ = b.take j ++ b.drop j := by
            rw [hsa, List.take_append_drop]
            congr 1
            rw [← huu]
            exact (rev_take_decomp (b.take j) l).symm
        _ = b := List.take_append_drop _ _
    have := flmCore_infix_max a b _ hwa hwb
    rw [hbest] at this
    simp only [List.length_append, hul, hslen] at this
    omega
  rw [hl0]
  simp only [Nat.sub_zero, Nat.add_zero]
  -- the right extension is empty
  have hr0 : commonPrefixLen (a.drop (i + k)) (b.drop (j + k)) = 0 := by
    set r := commonPrefixLen (a.drop (i + k)) (b.drop (j + k)) with hr
    set tr := (a.drop (i + k)).take r with htr
    have htrb : (b.drop (j + k)).take r = tr :=
      (take_eq_of_le_commonPrefixLen _ _ _ (Nat.le_of_eq hr)).symm
    have htrl : tr.length = r := by
      rw [htr, List.length_take]
      exact Nat.min_eq_left
        (Nat.le_trans (Nat.le_of_eq hr.symm)
          (commonPrefixLen_le_length_left _ _))
    have hdk : (a.drop i).drop k = a.drop (i + k) := by
      rw [List.drop_drop, Nat.add_comm]
    have hdkb : (b.drop j).drop k = b.drop (j + k) := by
      rw [List.drop_drop, Nat.add_comm]
    have hwa : ((a.drop i).take k ++ tr) <:+: a := by
      refine ⟨a.take i, (a.drop (i + k)).drop r, ?_⟩
      calc a.take i ++ ((a.drop i).take k ++ tr) ++ (a.drop (i + k)).drop r
          = a.take i ++ ((a.drop i).take k ++
              (tr ++ (a.drop (i + k)).drop r)) := by
            simp [List.append_assoc]
        _ = a.take i ++ ((a.drop i).take k ++ (a.drop i).drop k) := by
            rw [htr, hdk, List.take_append_drop]
        _ = a := by rw [List.take_append_drop, List.take_append_drop]
    have hwb : ((a.drop i).take k ++ tr) <:+: b := by
      refine ⟨b.take j, (b.drop (j + k)).drop r, ?_⟩
      calc b.take j ++ ((a.drop i).take k ++ tr) ++ (b.drop (j + k)).drop r
          = b.take j ++ ((b.drop j).take k ++
              (tr ++ (b.drop (j + k)).drop r)) := by
            rw [hsa]; simp [List.append_assoc]
        _ = b.take j ++ ((b.drop j).take k ++ (b.drop j).drop k) := by
            rw [← htrb, hdkb, List.take_append_drop]
        _ = b := by rw [List.take_append_drop, List.take_append_drop]
    have := flmCore_infix_max a b _ hwa hwb
    rw [hbest] at this
    simp only [List.length_append, htrl, hslen] at this
    omega
  rw [hr0]
  simp

/-- C5: general contract of `find_common_sequence`, valid whenever difflib's
autojunk heuristic is inactive for the second base name (no popular
characters, in particular whenever that name is shorter than 200
characters): the match the code examines is a longest common contiguous
substring of the two lowered, extension-stripped base names, and it is
returned exactly when it has length ≥ 4 and contains a 4-long alphanumeric
run. -/
theorem find_common_sequence_spec (str1 str2 : String)
    (hpop : popularChars (lowerStr (splitextName str2).1).data = []) :
    ∃ s : List Char,
      s <:+: (lowerStr (splitextName str1).1).data ∧
      s <:+: (lowerStr (splitextName str2).1).data ∧
      (∀ t : List Char,
        t <:+: (lowerStr (splitextName str1).1).data →
        t <:+: (lowerStr (splitextName str2).1).data →
        t.length ≤ s.length) ∧
      find_common_sequence str1 str2 =
        (if 4 ≤ s.length ∧ hasAlnumRun4 s = true then some (String.mk s)
         else none) := by
  set name1 := (lowerStr (splitextName str1).1).data with hn1
  set name2 := (lowerStr (splitextName str2).1).data with hn2
  rcases hbest : flmCore name1 name2 [] with ⟨i, j, k⟩
  have hk_le : k ≤ commonPrefixLen (name1.drop i) (name2.drop j) := by
    have := flmCore_le_cpl name1 name2
    rw [hbest] at this
    exact this
  have hsa : (name1.drop i).take k = (name2.drop j).take k :=
    take_eq_of_le_commonPrefixLen _ _ _ hk_le
  have hslen : ((name1.drop i).take k).length = k := by
    rw [List.length_take]
    exact Nat.min_eq_left
      (Nat.le_trans hk_le (commonPrefixLen_le_length_left _ _))
  refine ⟨(name1.drop i).take k, ?_, ?_, ?_, ?_⟩
  · exact ⟨name1.take i, (name1.drop i).drop k, by
      rw [List.append_assoc, List.take_append_drop, List.take_append_drop]⟩
  · exact ⟨name2.take j, (name2.drop j).drop k, by
      rw [hsa, List.append_assoc, List.take_append_drop,
        List.take_append_drop]⟩
  · intro t ht1 ht2
    have := flmCore_infix_max name1 name2 t ht1 ht2
    rw [hbest] at this
    rw [hslen]
    exact this
  · unfold find_common_sequence
    rw [← hn1, ← hn2]
    dsimp only
    rw [find_longest_match_eq_core name1 name2 hpop, hbest]
    dsimp only
    rw [hslen]
    by_cases h4 : 4 ≤ k
    · simp only [if_pos h4]
      by_cases hrun : hasAlnumRun4 ((name1.drop i).take k) = true
      · rw [if_pos hrun, if_pos ⟨h4, hrun⟩]
      · rw [if_neg hrun, if_neg (by tauto)]
    · rw [if_neg h4, if_neg (by tauto)]

/-! ## Lemmas: the conflict-safe mover (claims C3, C4) -/

theorem shutilMove_fresh (fs : FS) (src dst : FsPath)
    (hdst : ¬ pathExists fs dst) :
    ((src, dst) ∉ fs.moveFails ∧ src ∈ fs.files ∧
      shutilMove fs src dst = some { fs with files := dst :: fs.files.erase src }) ∨
    (((src, dst) ∈ fs.moveFails ∨ src ∉ fs.files) ∧
      shutilMove fs src dst = none) := by
  have hdf : dst ∉ fs.files := fun h => hdst (Or.inl h)
  have hdd : dst ∉ fs.dirs := fun h => hdst (Or.inr h)
  by_cases hmf : (src, dst) ∈ fs.moveFails
  · right
    exact ⟨Or.inl hmf, by simp [shutilMove, hmf]⟩
  · by_cases hsrc : src ∈ fs.files
    · left
      refine ⟨hmf, hsrc, ?_⟩
      have : dst ∉ fs.files.erase src := fun h => hdf (List.mem_of_mem_erase h)
      simp [shutilMove, hmf, hsrc, hdd, List.erase_of_not_mem this]
    · right
      exact ⟨Or.inr hsrc, by simp [shutilMove, hmf, hsrc]⟩

theorem mfhc_cases (st : SortState) (src dst : FsPath) :
    (move_file_handling_conflicts st src dst).1.attempts =
      st.attempts ++ [(src, dst)] ∧
    (move_file_handling_conflicts st src dst).1.fs.dirs = st.fs.dirs ∧
    (move_file_handling_conflicts st src dst).1.fs.moveFails = st.fs.moveFails ∧
    (move_file_handling_conflicts st src dst).1.progress = st.progress ∧
    (move_file_handling_conflicts st src dst).1.finished = st.finished ∧
    (move_file_handling_conflicts st src dst).1.processed = st.processed ∧
    (move_file_handling_conflicts st src dst).1.processed_count =
      st.processed_count ∧
    (move_file_handling_conflicts st src dst).1.restores = st.restores ∧
    st.statuses <+: (move_file_handling_conflicts st src dst).1.statuses ∧
    (((move_file_handling_conflicts st src dst).2 = none ∧
        (move_file_handling_conflicts st src dst).1.fs = st.fs ∧
        (move_file_handling_conflicts st src dst).1.moved_files =
          st.moved_files ∧
        (move_file_handling_conflicts st src dst).1.successes = st.successes ∧
        (move_file_handling_conflicts st src dst).1.statuses =
          st.statuses ++ ["Too many conflicts for " ++ pathToString dst] ∧
        pathExists st.fs dst) ∨
      (∃ fd, (move_file_handling_conflicts st src dst).2 = none ∧
        (move_file_handling_conflicts st src dst).1.fs = st.fs ∧
        (move_file_handling_conflicts st src dst).1.moved_files =
          st.moved_files ++ [(src, fd)] ∧
        (move_file_handling_conflicts st src dst).1.successes = st.successes ∧
        (move_file_handling_conflicts st src dst).1.statuses = st.statuses ∧
        ¬ pathExists st.fs fd ∧
        (fd = dst ∨ ∃ n, fd = cfPath dst n) ∧
        ((src, fd) ∈ st.fs.moveFails ∨ src ∉ st.fs.files)) ∨
      (∃ fd, (move_file_handling_conflicts st src dst).2 = some fd ∧
        (move_file_handling_conflicts st src dst).1.moved_files =
          st.moved_files ++ [(src, fd)] ∧
        (move_file_handling_conflicts st src dst).1.successes =
          st.successes ++ [(src, fd)] ∧
        (move_file_handling_conflicts st src dst).1.statuses = st.statuses ∧
        ¬ pathExists st.fs fd ∧
        (fd = dst ∨ ∃ n, fd = cfPath dst n) ∧
        src ∈ st.fs.files ∧
        (src, fd) ∉ st.fs.moveFails ∧
        (move_file_handling_conflicts st src dst).1.fs.files =
          fd :: st.fs.files.erase src)) := by
  by_cases hdst : pathExists st.fs dst
  · rcases hfind : (List.range' 1 99).find?
        (fun i => !decide (pathExists st.fs (cfPath dst i))) with _ | ⟨idx⟩
    · -- conflict exhaustion
      refine ⟨?_, ?_, ?_, ?_, ?_, ?_, ?_, ?_, ?_,
        Or.inl ⟨?_, ?_, ?_, ?_, ?_, hdst⟩⟩ <;>
        simp [move_file_handling_conflicts, hdst, hfind, List.prefix_append]
    · -- conflict resolved at cfPath dst idx
      have hfresh : ¬ pathExists st.fs (cfPath dst idx) := by
        have := List.find?_some hfind
        simpa using this
      rcases shutilMove_fresh st.fs src (cfPath dst idx) hfresh with
        ⟨hmf, hsrc, heq⟩ | ⟨hwhy, heq⟩
      · refine ⟨?_, ?_, ?_, ?_, ?_, ?_, ?_, ?_, ?_,
          Or.inr (Or.inr ⟨cfPath dst idx, ?_, ?_, ?_, ?_, hfresh,
            Or.inr ⟨idx, rfl⟩, hsrc, hmf, ?_⟩)⟩ <;>
          simp [move_file_handling_conflicts, hdst, hfind, heq]
      · refine ⟨?_, ?_, ?_, ?_, ?_, ?_, ?_, ?_, ?_,
          Or.inr (Or.inl ⟨cfPath dst idx, ?_, ?_, ?_, ?_, ?_, hfresh,
            Or.inr ⟨idx, rfl⟩, hwhy⟩)⟩ <;>
          simp [move_file_handling_conflicts, hdst, hfind, heq]
  · rcases shutilMove_fresh st.fs src dst hdst with
      ⟨hmf, hsrc, heq⟩ | ⟨hwhy, heq⟩
    · refine ⟨?_, ?_, ?_, ?_, ?_, ?_, ?_, ?_, ?_,
        Or.inr (Or.inr ⟨dst, ?_, ?_, ?_, ?_, hdst, Or.inl rfl, hsrc, hmf,
          ?_⟩)⟩ <;>
        simp [move_file_handling_conflicts, hdst, heq]
    · refine ⟨?_, ?_, ?_, ?_, ?_, ?_, ?_, ?_, ?_,
        Or.inr (Or.inl ⟨dst, ?_, ?_, ?_, ?_, ?_, hdst, Or.inl rfl,
          hwhy⟩)⟩ <;>
        simp [move_file_handling_conflicts, hdst, heq]

theorem find?_range'_eq_some {p : Nat → Bool} :
    ∀ {n s i : Nat}, s ≤ i → i < s + n → p i = true →
      (∀ j, s ≤ j → j < i → p j = false) →
      (List.range' s n).find? p = some i := by
  intro n
  induction n with
  | zero => intro s i h1 h2; omega
  | succ m ih =>
    intro s i h1 h2 hp hmin
    rw [List.range'_succ]
    by_cases hsi : s = i
    · subst hsi
      simp [List.find?_cons, hp]
    · have hs : p s = false := hmin s (Nat.le_refl s) (by omega)
      simp only [List.find?_cons, hs]
      exact ih (by omega) (by omega) hp fun j h1 h2 => hmin j (by omega) h2

/-- C3 (amended): on a collision, the mover returns the first unused
candidate in numeric probe order `-CF1, -CF2, …, -CF99` (smallest index, not
lexicographically-first), records `(src, that path)`, and performs the
move — provided the underlying move does not itself fail. -/
theorem mfhc_numeric_first_free (st : SortState) (src dst : FsPath) (i : Nat)
    (hdst : pathExists st.fs dst) (hi1 : 1 ≤ i) (hi99 : i ≤ 99)
    (hfree : ¬ pathExists st.fs (cfPath dst i))
    (hmin : ∀ j, 1 ≤ j → j < i → pathExists st.fs (cfPath dst j))
    (hsrc : src ∈ st.fs.files)
    (hmf : (src, cfPath dst i) ∉ st.fs.moveFails) :
    (move_file_handling_conflicts st src dst).2 = some (cfPath dst i) ∧
    (move_file_handling_conflicts st src dst).1.moved_files =
      st.moved_files ++ [(src, cfPath dst i)] ∧
    (move_file_handling_conflicts st src dst).1.fs.files =
      cfPath dst i :: st.fs.files.erase src ∧
    (move_file_handling_conflicts st src dst).1.fs.dirs = st.fs.dirs := by
  have hfind : (List.range' 1 99).find?
      (fun n => !decide (pathExists st.fs (cfPath dst n))) = some i := by
    refine find?_range'_eq_some hi1 (by omega) (by simp [hfree]) ?_
    intro j hj1 hji
    simp [hmin j hj1 hji]
  rcases shutilMove_fresh st.fs src (cfPath dst i) hfree with
    ⟨_, _, heq⟩ | ⟨hwhy, _⟩
  · refine ⟨?_, ?_, ?_, ?_⟩ <;>
      simp [move_file_handling_conflicts, hdst, hfind, heq]
  · rcases hwhy with h | h
    · exact absurd h hmf
    · exact absurd hsrc h

/-- C4 (amended): the two failure modes of the mover.  On conflict
exhaustion (destination and all 99 candidates occupied): no move, no record,
a status message, and the caller continues.  On an underlying `shutil.move`
failure: no filesystem change and the caller continues, but — unlike the
claim — the record `(src, final_dst)` has already been appended to the move
log. -/
theorem mfhc_failure_spec :
    (∀ (st : SortState) (src dst : FsPath), pathExists st.fs dst →
      (∀ i, 1 ≤ i → i ≤ 99 → pathExists st.fs (cfPath dst i)) →
      (move_file_handling_conflicts st src dst).2 = none ∧
      (move_file_handling_conflicts st src dst).1.fs = st.fs ∧
      (move_file_handling_conflicts st src dst).1.moved_files =
        st.moved_files ∧
      (move_file_handling_conflicts st src dst).1.successes = st.successes ∧
      (move_file_handling_conflicts st src dst).1.statuses =
        st.statuses ++ ["Too many conflicts for " ++ pathToString dst]) ∧
    (∀ (st : SortState) (src dst : FsPath), ¬ pathExists st.fs dst →
      ((src, dst) ∈ st.fs.moveFails ∨ src ∉ st.fs.files) →
      (move_file_handling_conflicts st src dst).2 = none ∧
      (move_file_handling_conflicts st src dst).1.fs = st.fs ∧
      (move_file_handling_conflicts st src dst).1.moved_files =
        st.moved_files ++ [(src, dst)] ∧
      (move_file_handling_conflicts st src dst).1.successes = st.successes) := by
  constructor
  · intro st src dst hdst hall
    have hfind : (List.range' 1 99).find?
        (fun n => !decide (pathExists st.fs (cfPath dst n))) = none := by
      rw [List.find?_eq_none]
      intro j hj
      have hj2 := List.mem_range'_1.mp hj
      simp [hall j hj2.1 (by omega)]
    refine ⟨?_, ?_, ?_, ?_, ?_⟩ <;>
      simp [move_file_handling_conflicts, hdst, hfind]
  · intro st src dst hdst hwhy
    have heq : shutilMove st.fs src dst = none := by
      rcases shutilMove_fresh st.fs src dst hdst with ⟨hmf, hsrc, _⟩ | ⟨_, h⟩
      · rcases hwhy with h | h
        · exact absurd h hmf
        · exact absurd hsrc h
      · exact h
    refine ⟨?_, ?_, ?_, ?_⟩ <;>
      simp [move_file_handling_conflicts, hdst, heq]

/-! ## Lemmas: undo (claims C7, C8) -/

theorem makedirs_some_spec {fs : FS} {p : FsPath} {fs1 : FS}
    (h : makedirs fs p = some fs1) :
    fs1.files = fs.files ∧ fs1.moveFails = fs.moveFails ∧
    fs.dirs <+: fs1.dirs := by
  unfold makedirs at h
  split at h
  · exact absurd h (by simp)
  · rw [Option.some_inj] at h
    subst h
    exact ⟨rfl, rfl, List.prefix_append _ _⟩

theorem shutilMove_some_spec {fs : FS} {src dst : FsPath} {fs2 : FS}
    (h : shutilMove fs src dst = some fs2) :
    fs2.dirs = fs.dirs ∧ fs2.moveFails = fs.moveFails := by
  unfold shutilMove at h
  split at h
  · exact absurd h (by simp)
  · split at h
    · exact absurd h (by simp)
    · dsimp only at h
      split at h
      · split at h
        · exact absurd h (by simp)
        · rw [Option.some_inj] at h
          subst h
          exact ⟨rfl, rfl⟩
      · rw [Option.some_inj] at h
        subst h
        exact ⟨rfl, rfl⟩

theorem restoreOne_frame (st : SortState) (rec : FsPath × FsPath) :
    (restoreOne st rec).moved_files = st.moved_files ∧
    (restoreOne st rec).attempts = st.attempts ∧
    (restoreOne st rec).successes = st.successes ∧
    (restoreOne st rec).statuses = st.statuses ∧
    (restoreOne st rec).progress = st.progress ∧
    (restoreOne st rec).finished = st.finished ∧
    (restoreOne st rec).processed = st.processed ∧
    (restoreOne st rec).processed_count = st.processed_count ∧
    (restoreOne st rec).fs.moveFails = st.fs.moveFails := by
  unfold restoreOne
  dsimp only
  split
  · split
    · exact ⟨rfl, rfl, rfl, rfl, rfl, rfl, rfl, rfl, rfl⟩
    · rename_i fs1 hmk
      split
      · rename_i fs2 hmv
        have h1 : fs1.moveFails = st.fs.moveFails := by
          revert hmk
          split
          · intro h; rw [Option.some_inj] at h; subst h; rfl
          · intro h
            exact (makedirs_some_spec h).2.1
        have h2 := (shutilMove_some_spec hmv).2
        exact ⟨rfl, rfl, rfl, rfl, rfl, rfl, rfl, rfl, by simp [h2, h1]⟩
      · rename_i hmv
        have h1 : fs1.moveFails = st.fs.moveFails := by
          revert hmk
          split
          · intro h; rw [Option.some_inj] at h; subst h; rfl
          · intro h
            exact (makedirs_some_spec h).2.1
        exact ⟨rfl, rfl, rfl, rfl, rfl, rfl, rfl, rfl, h1⟩
  · exact ⟨rfl, rfl, rfl, rfl, rfl, rfl, rfl, rfl, rfl⟩

theorem restoreFold_moved_files (l : List (FsPath × FsPath)) :
    ∀ st : SortState, (l.foldl restoreOne st).moved_files = st.moved_files := by
  induction l with
  | nil => intro st; rfl
  | cons rec rest ih =>
    intro st
    rw [List.foldl_cons, ih, (restoreOne_frame st rec).1]

theorem pruneEmptyDirs_spec (root : FsPath) (fs : FS) :
    (pruneEmptyDirs root fs).files = fs.files ∧
    List.Sublist (pruneEmptyDirs root fs).dirs fs.dirs ∧
    (pruneEmptyDirs root fs).moveFails = fs.moveFails := by
  unfold pruneEmptyDirs
  generalize sortByLenDesc (fs.dirs.filter fun d =>
    d ≠ root && root.isPrefixOf d) = ds
  induction ds generalizing fs with
  | nil => exact ⟨rfl, List.Sublist.refl _, rfl⟩
  | cons d rest ih =>
    rw [List.foldl_cons]
    split
    · rcases ih { fs with dirs := fs.dirs.erase d } with ⟨h1, h2, h3⟩
      exact ⟨h1, h2.trans (List.erase_sublist _ _), h3⟩
    · exact ih fs

/-- C8 (amended): the undo operation iterates the move log in reverse but
does not consume it — after `undo_sorting` returns, `moved_files` is
unchanged (the log is never cleared by the code). -/
theorem undo_sorting_preserves_log (root : FsPath) (st : SortState) :
    (undo_sorting root st).moved_files = st.moved_files := by
  unfold undo_sorting
  exact restoreFold_moved_files _ st

/-- C7 (amended): undo on an empty move log performs no file moves and
still emits the completion signal; it can however still delete directories
(the empty-folder prune runs regardless), only ever removing existing
directories. -/
theorem undo_empty_log_spec (root : FsPath) (st : SortState)
    (h : st.moved_files = []) :
    (undoThreadRun root st).1.fs.files = st.fs.files ∧
    List.Sublist (undoThreadRun root st).1.fs.dirs st.fs.dirs ∧
    (undoThreadRun root st).1.moved_files = [] ∧
    (undoThreadRun root st).2 = true := by
  unfold undoThreadRun undo_sorting
  rw [h]
  simp only [List.reverse_nil, List.foldl_nil]
  rcases pruneEmptyDirs_spec root st.fs with ⟨h1, h2, _⟩
  refine ⟨h1, h2, ?_, ?_⟩ <;> simp [h]

/-! ## Lemmas: listings and similarity groups -/

theorem mem_get_all_files {fs : FS} {dir : FsPath} {f : String} :
    f ∈ get_all_files fs dir ↔ (dir ++ [f]) ∈ fs.files := by
  unfold get_all_files
  rw [List.mem_filterMap]
  constructor
  · rintro ⟨p, hp, hcond⟩
    split at hcond
    · rename_i hdrop
      have hne : p ≠ [] := by
        intro h
        rw [h] at hcond
        simp at hcond
      have hlast := List.getLast?_eq_getLast p hne
      rw [hlast] at hcond
      rw [Option.some_inj] at hcond
      have hdg : p.dropLast ++ [p.getLast hne] = p :=
        List.dropLast_append_getLast hne
      rw [← hdrop, ← hcond, hdg]
      exact hp
    · simp at hcond
  · intro hmem
    refine ⟨dir ++ [f], hmem, ?_⟩
    rw [if_pos (by simp), List.getLast?_concat]

theorem get_all_files_nodup {fs : FS} {dir : FsPath}
    (h : fs.files.Nodup) : (get_all_files fs dir).Nodup := by
  unfold get_all_files
  refine List.Nodup.filterMap ?_ h
  intro a b c ha hb
  split at ha
  · rename_i hda
    split at hb
    · rename_i hdb
      have hane : a ≠ [] := by intro h; rw [h] at ha; simp at ha
      have hbne : b ≠ [] := by intro h; rw [h] at hb; simp at hb
      rw [Option.mem_def, List.getLast?_eq_getLast a hane,
        Option.some_inj] at ha
      rw [Option.mem_def, List.getLast?_eq_getLast b hbne,
        Option.some_inj] at hb
      calc a = a.dropLast ++ [a.getLast hane] :=
            (List.dropLast_append_getLast hane).symm
        _ = dir ++ [c] := by rw [hda, ha]
        _ = b.dropLast ++ [b.getLast hbne] := by rw [hdb, hb]
        _ = b := List.dropLast_append_getLast hbne
    · simp at hb
  · simp at ha

theorem mem_combinations2 {l : List α} :
    ∀ {p : α × α}, p ∈ combinations2 l → p.1 ∈ l ∧ p.2 ∈ l := by
  induction l with
  | nil => intro p h; simp [combinations2] at h
  | cons x xs ih =>
    intro p h
    simp only [combinations2, List.mem_append, List.mem_map] at h
    rcases h with ⟨y, hy, rfl⟩ | h
    · exact ⟨List.mem_cons_self _ _, List.mem_cons_of_mem _ hy⟩
    · rcases ih h with ⟨h1, h2⟩
      exact ⟨List.mem_cons_of_mem _ h1, List.mem_cons_of_mem _ h2⟩

theorem combinations2_ne {l : List α} (hnd : l.Nodup) :
    ∀ {p : α × α}, p ∈ combinations2 l → p.1 ≠ p.2 := by
  induction l with
  | nil => intro p h; simp [combinations2] at h
  | cons x xs ih =>
    intro p h
    simp only [combinations2, List.mem_append, List.mem_map] at h
    rcases h with ⟨y, hy, rfl⟩ | h
    · intro hcon
      simp only at hcon
      rw [hcon] at hnd
      exact (List.nodup_cons.mp hnd).1 hy
    · exact ih (List.nodup_cons.mp hnd).2 h

theorem addMember_spec (members : List String) (f : String) :
    f ∈ addMember members f ∧
    (∀ x ∈ members, x ∈ addMember members f) ∧
    (∀ x ∈ addMember members f, x ∈ members ∨ x = f) ∧
    (members.Nodup → (addMember members f).Nodup) ∧
    members.length ≤ (addMember members f).length := by
  unfold addMember
  split
  · rename_i h
    exact ⟨h, fun x hx => hx, fun x hx => Or.inl hx, fun h => h, Nat.le_refl _⟩
  · rename_i h
    refine ⟨by simp, fun x hx => by simp [hx], ?_, ?_, by simp⟩
    · intro x hx
      rcases List.mem_append.mp hx with h1 | h1
      · exact Or.inl h1
      · simp at h1; exact Or.inr h1
    · intro hnd
      simp [List.nodup_append, hnd, h]

theorem addToGroup_wf (files : List String) (f1 f2 : String)
    (h1 : f1 ∈ files) (h2 : f2 ∈ files) (hne : f1 ≠ f2) :
    ∀ (groups : List (String × List String)) (common : String),
      (∀ g ∈ groups, GroupWF files g) →
      ∀ g ∈ addToGroup groups common f1 f2, GroupWF files g := by
  intro groups
  induction groups with
  | nil =>
    intro common _ g hg
    simp only [addToGroup, List.mem_singleton] at hg
    subst hg
    refine ⟨?_, ?_, ?_⟩
    · simp [addMember, hne.symm]
    · rcases addMember_spec (addMember [] f1) f2 with ⟨_, _, _, hnd, _⟩
      refine hnd ?_
      rcases addMember_spec [] f1 with ⟨_, _, _, hnd1, _⟩
      exact hnd1 (List.nodup_nil)
    · intro x hx
      rcases addMember_spec (addMember [] f1) f2 with ⟨_, _, hsub, _, _⟩
      rcases hsub x hx with hx1 | hx1
      · rcases addMember_spec [] f1 with ⟨_, _, hsub1, _, _⟩
        rcases hsub1 x hx1 with hx2 | hx2
        · simp at hx2
        · rw [hx2]; exact h1
      · rw [hx1]; exact h2
  | cons g0 rest ih =>
    intro common hwf g hg
    simp only [addToGroup] at hg
    split at hg
    · rcases List.mem_cons.mp hg with hg1 | hg1
      · subst hg1
        have hwf0 := hwf g0 (List.mem_cons_self _ _)
        rcases addMember_spec (addMember g0.2 f1) f2 with ⟨_, hkeep, hsub, hnd, hlen⟩
        rcases addMember_spec g0.2 f1 with ⟨_, hkeep1, hsub1, hnd1, hlen1⟩
        refine ⟨?_, ?_, ?_⟩
        · exact Nat.le_trans hwf0.1 (Nat.le_trans hlen1 hlen)
        · exact hnd (hnd1 hwf0.2.1)
        · intro x hx
          rcases hsub x hx with hx1 | hx1
          · rcases hsub1 x hx1 with hx2 | hx2
            · exact hwf0.2.2 hx2
            · rw [hx2]; exact h1
          · rw [hx1]; exact h2
      · exact hwf g (List.mem_cons_of_mem _ hg1)
    · rcases List.mem_cons.mp hg with hg1 | hg1
      · subst hg1
        exact hwf g0 (List.mem_cons_self _ _)
      · exact ih common (fun g hgm => hwf g (List.mem_cons_of_mem _ hgm)) g hg1

theorem mem_insertDesc {a x : String × List String}
    {l : List (String × List String)} :
    x ∈ insertDesc a l ↔ x = a ∨ x ∈ l := by
  induction l with
  | nil => simp [insertDesc]
  | cons b bs ih =>
    simp only [insertDesc]
    split
    · simp only [List.mem_cons, ih]
      tauto
    · simp only [List.mem_cons]

theorem mem_sortGroupsDesc {x : String × List String}
    {l : List (String × List String)} :
    x ∈ sortGroupsDesc l ↔ x ∈ l := by
  unfold sortGroupsDesc
  induction l with
  | nil => simp
  | cons b bs ih =>
    simp only [List.foldr_cons, mem_insertDesc, List.mem_cons, ih]

theorem build_similarity_groups_wf (files : List String) (hnd : files.Nodup) :
    ∀ g ∈ build_similarity_groups files, GroupWF files g := by
  intro g hg
  unfold build_similarity_groups at hg
  rw [mem_sortGroupsDesc] at hg
  have main : ∀ (ps : List (String × String)),
      (∀ p ∈ ps, p.1 ∈ files ∧ p.2 ∈ files ∧ p.1 ≠ p.2) →
      ∀ (acc : List (String × List String)),
        (∀ g ∈ acc, GroupWF files g) →
        ∀ g ∈ ps.foldl
          (fun gs p =>
            match find_common_sequence p.1 p.2 with
            | some common => addToGroup gs common p.1 p.2
            | none => gs) acc, GroupWF files g := by
    intro ps
    induction ps with
    | nil => intro _ acc hacc g hg; exact hacc g hg
    | cons p rest ih =>
      intro hps acc hacc g hg
      rw [List.foldl_cons] at hg
      rcases hps p (List.mem_cons_self _ _) with ⟨hp1, hp2, hp3⟩
      refine ih (fun q hq => hps q (List.mem_cons_of_mem _ hq)) _ ?_ g hg
      cases hfc : find_common_sequence p.1 p.2 with
      | none => simpa [hfc] using hacc
      | some common =>
        simp only [hfc]
        exact addToGroup_wf files p.1 p.2 hp1 hp2 hp3 acc common hacc
  refine main _ ?_ [] (by simp) g hg
  intro p hp
  exact ⟨(mem_combinations2 hp).1, (mem_combinations2 hp).2,
    combinations2_ne hnd hp⟩

/-! ## The run invariant -/

theorem movesSpec_nodup {l0 l1 : List FsPath} {rs : List (FsPath × FsPath)}
    (h : MovesSpec l0 rs l1) (hnd : l0.Nodup) : l1.Nodup := by
  induction h with
  | nil => exact hnd
  | snoc _ hs hc ih =>
    refine List.Nodup.cons ?_ (List.Nodup.erase _ ih)
    intro hmem
    exact hc (List.mem_of_mem_erase hmem)

theorem srcCount_append (l : List (FsPath × FsPath)) (r : FsPath × FsPath)
    (p : FsPath) :
    srcCount (l ++ [r]) p = srcCount l p + (if r.1 = p then 1 else 0) := by
  unfold srcCount
  rw [List.filter_append]
  by_cases h : r.1 = p <;> simp [h]

theorem append_singleton_inj {root : FsPath} {f g : String}
    (h : root ++ [f] = root ++ [g]) : f = g := by
  have := List.append_cancel_left h
  simpa using this

theorem two_comp_ne_one_comp {root : FsPath} {x y f : String} :
    root ++ [x, y] ≠ root ++ [f] := by
  intro h
  have := congrArg List.length h
  simp [List.length_append] at this

theorem cfPath_length {dst : FsPath} (h : dst ≠ []) (n : Nat) :
    (cfPath dst n).length = dst.length := by
  unfold cfPath
  rw [List.length_append, List.length_dropLast, List.length_singleton]
  have : 1 ≤ dst.length := by
    cases dst
    · exact absurd rfl h
    · simp
  omega

theorem conflictStatus_mono {st st' : SortState}
    (h : st.statuses <+: st'.statuses) (hc : HasConflictStatus st) :
    HasConflictStatus st' := by
  obtain ⟨x, hx, hpre⟩ := hc
  exact ⟨x, h.sublist.mem hx, hpre⟩

theorem root_mem_pathPrefixes {root : FsPath} (h : root ≠ []) :
    root ∈ pathPrefixes root := by
  unfold pathPrefixes
  rw [List.mem_map]
  refine ⟨root.length - 1, ?_, ?_⟩
  · rw [List.mem_range]
    cases root
    · exact absurd rfl h
    · simp
  · have : root.length - 1 + 1 = root.length := by
      cases root
      · exact absurd rfl h
      · simp
    rw [this, List.take_length]

theorem conflict_msg_is_conflict (dst : FsPath) :
    "Too many conflicts".data.isPrefixOf
      ("Too many conflicts for " ++ pathToString dst).data = true := by
  rw [List.isPrefixOf_iff_prefix]
  have h1 : ("Too many conflicts for " ++ pathToString dst).data =
      "Too many conflicts for ".data ++ (pathToString dst).data := by
    simp [String.data_append]
  rw [h1]
  refine List.IsPrefix.trans ?_ (List.prefix_append _ _)
  decide

theorem mfhc_loop_step (root : FsPath) (fs0 : FS) (orig : List String)
    (st : SortState) (processed : List String) (count : Nat)
    (file folder : String) (hroot : root ≠ [])
    (hInv : LoopInv root fs0 orig st processed count)
    (hfo : file ∈ orig) (hfp : file ∉ processed) :
    LoopInv root fs0 orig
      (move_file_handling_conflicts st (root ++ [file])
        (root ++ [folder, file])).1
      (processed ++ [file]) (count + 1) := by
  set src := root ++ [file] with hsrc_def
  set dst := root ++ [folder, file] with hdst_def
  obtain ⟨hatt, hdirs, hmf, hprog, hfin, hproc, hpc, hres, hstat, hcase⟩ :=
    mfhc_cases st src dst
  set st' := (move_file_handling_conflicts st src dst).1 with hst'
  have hsrcfiles : src ∈ st.fs.files := (hInv.att_unpr file hfo hfp).2
  have hatt0 : srcCount st.attempts src = 0 := (hInv.att_unpr file hfo hfp).1
  have hrec0 : srcCount st.moved_files src = 0 := by
    have := hInv.recLe src
    omega
  have hsucc0 : srcCount st.successes src = 0 := by
    have := hInv.succLe src
    omega
  have hdstne : dst ≠ [] := by
    rw [hdst_def]
    intro h
    have := congrArg List.length h
    simp at this
  have hfdlen : ∀ fd : FsPath, (fd = dst ∨ ∃ n, fd = cfPath dst n) →
      fd.length = root.length + 2 := by
    rintro fd (rfl | ⟨n, rfl⟩)
    · simp [hdst_def]
    · rw [cfPath_length hdstne]
      simp [hdst_def]
  have hfd_ne_root : ∀ (fd : FsPath) (g : String),
      (fd = dst ∨ ∃ n, fd = cfPath dst n) → fd ≠ root ++ [g] := by
    intro fd g hshape hcon
    have h1 := hfdlen fd hshape
    have := congrArg List.length hcon
    simp [List.length_append] at this
    omega
  have hinj : ∀ g : String, src = root ++ [g] ↔ file = g := by
    intro g
    constructor
    · intro h; exact append_singleton_inj h
    · intro h; subst h; exact hsrc_def
  have hattCount : ∀ g : String,
      srcCount st'.attempts (root ++ [g]) =
        srcCount st.attempts (root ++ [g]) +
          (if file = g then 1 else 0) := by
    intro g
    rw [hatt, srcCount_append]
    congr 1
    by_cases h : file = g
    · rw [if_pos ((hinj g).mpr h), if_pos h]
    · rw [if_neg (fun hc => h ((hinj g).mp hc)), if_neg h]
  refine
    { core := ?core
      rootFile_mem := ?rootFile_mem
      prND := ?prND
      prSub := ?prSub
      cntEq := ?cntEq
      att_pr := ?att_pr
      att_unpr := ?att_unpr
      recLe := ?recLe
      recEq := ?recEq
      succLe := ?succLe
      stay := ?stay }
  case prND =>
    simp [List.nodup_append, hInv.prND, hfp]
  case prSub =>
    intro x hx
    rcases List.mem_append.mp hx with h | h
    · exact hInv.prSub h
    · simp at h; rw [h]; exact hfo
  case cntEq =>
    simp [hInv.cntEq]
  case att_pr =>
    intro g hg
    rw [hattCount]
    rcases List.mem_append.mp hg with h | h
    · have hgne : file ≠ g := fun hc => hfp (hc ▸ h)
      rw [if_neg hgne, hInv.att_pr g h]
    · simp at h
      rw [if_pos h.symm, h, ← hsrc_def, hatt0]
  case att_unpr =>
    intro g hgo hgp
    have hgpr : g ∉ processed := fun h => hgp (List.mem_append.mpr (Or.inl h))
    have hgfile : file ≠ g := by
      intro h
      exact hgp (List.mem_append.mpr (Or.inr (by simp [h])))
    obtain ⟨hc0, hcmem⟩ := hInv.att_unpr g hgo hgpr
    rw [hattCount, if_neg hgfile]
    refine ⟨hc0, ?_⟩
    rcases hcase with ⟨_, hfs, _⟩ | ⟨fd, _, hfs, _⟩ | ⟨fd, _, _, _, _, _, hshape, _, _, hfiles⟩
    · rw [hfs]; exact hcmem
    · rw [hfs]; exact hcmem
    · rw [hfiles]
      refine List.mem_cons_of_mem _ ((List.mem_erase_of_ne ?_).mpr hcmem)
      intro hc
      exact hgfile ((hinj g).mp hc.symm)
  case core =>
    refine
      { filesND := ?filesND
        moveFailsEq := by rw [hmf]; exact hInv.core.moveFailsEq
        dirsND := by rw [hdirs]; exact hInv.core.dirsND
        dirsAppend := by rw [hdirs]; exact hInv.core.dirsAppend
        rootPrefixes := by
          intro q hq
          rw [hdirs]
          exact hInv.core.rootPrefixes q hq
        recParents := ?recParents
        spec := ?spec }
    case filesND =>
      rcases hcase with ⟨_, hfs, _⟩ | ⟨fd, _, hfs, _⟩ |
        ⟨fd, _, _, _, _, hfresh, hshape, _, _, hfiles⟩
      · rw [hfs]; exact hInv.core.filesND
      · rw [hfs]; exact hInv.core.filesND
      · rw [hfiles]
        refine List.Nodup.cons ?_ (List.Nodup.erase _ hInv.core.filesND)
        intro hmem
        exact hfresh (Or.inl (List.mem_of_mem_erase hmem))
    case recParents =>
      have hnewrec : ∀ fd : FsPath,
          ∀ r ∈ st.moved_files ++ [(src, fd)], r.1.dropLast ∈ st'.fs.dirs := by
        intro fd r hr
        rw [hdirs]
        rcases List.mem_append.mp hr with h | h
        · exact hInv.core.recParents r h
        · simp only [List.mem_singleton] at h
          subst h
          simp only [hsrc_def, List.dropLast_concat]
          exact hInv.core.rootPrefixes root (root_mem_pathPrefixes hroot)
      rcases hcase with ⟨_, _, hmoved, _⟩ | ⟨fd, _, _, hmoved, _⟩ |
        ⟨fd, _, hmoved, _⟩
      · rw [hmoved, hdirs]
        exact hInv.core.recParents
      · rw [hmoved]
        exact hnewrec fd
      · rw [hmoved]
        exact hnewrec fd
    case spec =>
      intro hmf0
      rcases hcase with ⟨_, hfs, hmoved, _⟩ |
        ⟨fd, _, hfs, hmoved, _, _, hfresh, hshape, hwhy⟩ |
        ⟨fd, _, hmoved, _, _, hfresh, hshape, hsrcmem, _, hfiles⟩
      · rw [hfs, hmoved]
        exact hInv.core.spec hmf0
      · exfalso
        rcases hwhy with h | h
        · rw [hInv.core.moveFailsEq, hmf0] at h
          simp at h
        · exact h hsrcfiles
      · rw [hmoved, hfiles]
        exact MovesSpec.snoc (hInv.core.spec hmf0) hsrcfiles
          (fun h => hfresh (Or.inl h))
  case rootFile_mem =>
    intro g hg
    rcases hcase with ⟨_, hfs, _⟩ | ⟨fd, _, hfs, _⟩ |
      ⟨fd, _, _, _, _, hfresh, hshape, _, _, hfiles⟩
    · rw [hfs] at hg; exact hInv.rootFile_mem g hg
    · rw [hfs] at hg; exact hInv.rootFile_mem g hg
    · rw [hfiles] at hg
      rcases List.mem_cons.mp hg with h | h
      · exact absurd h.symm (hfd_ne_root fd g hshape)
      · exact hInv.rootFile_mem g (List.mem_of_mem_erase h)
  case recLe =>
    intro p
    have hattp : srcCount st'.attempts p =
        srcCount st.attempts p + (if src = p then 1 else 0) := by
      rw [hatt, srcCount_append]
    have hle := hInv.recLe p
    rcases hcase with ⟨_, _, hmoved, _⟩ | ⟨fd, _, _, hmoved, _⟩ |
      ⟨fd, _, hmoved, _⟩ <;>
      rw [hmoved] <;>
      [skip; rw [srcCount_append]; rw [srcCount_append]] <;>
      rw [hattp] <;>
      by_cases hsp : src = p <;> simp [hsp] <;> omega
  case recEq =>
    intro p hlt
    rcases hcase with ⟨_, _, hmoved, _, hstatuses, _⟩ |
      ⟨fd, _, _, hmoved, _, hstatuses, _⟩ | ⟨fd, _, hmoved, _, hstatuses, _⟩
    · exact ⟨"Too many conflicts for " ++ pathToString dst,
        by rw [hstatuses]; simp, conflict_msg_is_conflict dst⟩
    · rw [hmoved, srcCount_append] at hlt
      rw [hatt, srcCount_append] at hlt
      have : srcCount st.moved_files p < srcCount st.attempts p := by
        by_cases hsp : src = p <;> simp [hsp] at hlt <;> omega
      have hc := hInv.recEq p this
      obtain ⟨x, hx, hpre⟩ := hc
      exact ⟨x, by rw [hstatuses]; exact hx, hpre⟩
    · rw [hmoved, srcCount_append] at hlt
      rw [hatt, srcCount_append] at hlt
      have : srcCount st.moved_files p < srcCount st.attempts p := by
        by_cases hsp : src = p <;> simp [hsp] at hlt <;> omega
      have hc := hInv.recEq p this
      obtain ⟨x, hx, hpre⟩ := hc
      exact ⟨x, by rw [hstatuses]; exact hx, hpre⟩
  case succLe =>
    intro p
    have hle := hInv.succLe p
    rcases hcase with ⟨_, _, hmoved, hsuccs, _⟩ |
      ⟨fd, _, _, hmoved, hsuccs, _⟩ | ⟨fd, _, hmoved, hsuccs, _⟩
    · rw [hmoved, hsuccs]; exact hle
    · rw [hmoved, hsuccs, srcCount_append]
      by_cases hsp : src = p <;> simp [hsp] <;> omega
    · rw [hmoved, hsuccs, srcCount_append, srcCount_append]
      by_cases hsp : src = p <;> simp [hsp] <;> omega
  case stay =>
    intro g hgo hsucc
    rcases hcase with ⟨_, hfs, _, hsuccs, _⟩ |
      ⟨fd, _, hfs, _, hsuccs, _⟩ |
      ⟨fd, _, _, hsuccs, _, hfresh, hshape, _, _, hfiles⟩
    · rw [hsuccs] at hsucc
      rw [hfs]
      exact hInv.stay g hgo hsucc
    · rw [hsuccs] at hsucc
      rw [hfs]
      exact hInv.stay g hgo hsucc
    · rw [hsuccs, srcCount_append] at hsucc
      by_cases hfg : file = g
      · rw [if_pos ((hinj g).mpr hfg)] at hsucc
        omega
      · rw [if_neg (fun hc => hfg ((hinj g).mp hc))] at hsucc
        simp only [Nat.add_zero] at hsucc
        have hmem := hInv.stay g hgo hsucc
        rw [hfiles]
        refine List.mem_cons_of_mem _ ((List.mem_erase_of_ne ?_).mpr hmem)
        intro hc
        exact hfg ((hinj g).mp hc.symm)

theorem loopInv_set_progress {root fs0 orig st processed count}
    (h : LoopInv root fs0 orig st processed count) (p : List Nat) :
    LoopInv root fs0 orig { st with progress := p } processed count :=
  { core :=
      { filesND := h.core.filesND
        moveFailsEq := h.core.moveFailsEq
        dirsND := h.core.dirsND
        dirsAppend := h.core.dirsAppend
        rootPrefixes := h.core.rootPrefixes
        recParents := h.core.recParents
        spec := h.core.spec }
    rootFile_mem := h.rootFile_mem
    prND := h.prND
    prSub := h.prSub
    cntEq := h.cntEq
    att_pr := h.att_pr
    att_unpr := h.att_unpr
    recLe := h.recLe
    recEq := h.recEq
    succLe := h.succLe
    stay := h.stay }

theorem loopInv_snapshot {root fs0 orig st processed count}
    (h : LoopInv root fs0 orig st processed count) :
    LoopInv root fs0 orig
      { st with processed := processed, processed_count := count }
      processed count :=
  { core :=
      { filesND := h.core.filesND
        moveFailsEq := h.core.moveFailsEq
        dirsND := h.core.dirsND
        dirsAppend := h.core.dirsAppend
        rootPrefixes := h.core.rootPrefixes
        recParents := h.core.recParents
        spec := h.core.spec }
    rootFile_mem := h.rootFile_mem
    prND := h.prND
    prSub := h.prSub
    cntEq := h.cntEq
    att_pr := h.att_pr
    att_unpr := h.att_unpr
    recLe := h.recLe
    recEq := h.recEq
    succLe := h.succLe
    stay := h.stay }

theorem mem_pathPrefixes {q p : FsPath} :
    q ∈ pathPrefixes p ↔ ∃ i, i < p.length ∧ q = p.take (i + 1) := by
  unfold pathPrefixes
  simp only [List.mem_map, List.mem_range]
  constructor
  · rintro ⟨i, hi, rfl⟩; exact ⟨i, hi, rfl⟩
  · rintro ⟨i, hi, rfl⟩; exact ⟨i, hi, rfl⟩

theorem pathPrefixes_nodup (p : FsPath) : (pathPrefixes p).Nodup := by
  unfold pathPrefixes
  refine List.Nodup.map_on ?_ (List.nodup_range _)
  intro i hi j hj hij
  rw [List.mem_range] at hi hj
  have h1 : (p.take (i + 1)).length = i + 1 :=
    List.length_take_of_le (by omega)
  have h2 : (p.take (j + 1)).length = j + 1 :=
    List.length_take_of_le (by omega)
  have := congrArg List.length hij
  rw [h1, h2] at this
  omega

theorem makedirs_root_ext {root : FsPath} {x : String} {fs fs2 : FS}
    (hroot : root ≠ [])
    (hpre : ∀ q ∈ pathPrefixes root, q ∈ fs.dirs)
    (h : makedirs fs (root ++ [x]) = some fs2) :
    fs2.files = fs.files ∧ fs2.moveFails = fs.moveFails ∧
    ∃ extra : List FsPath, fs2.dirs = fs.dirs ++ extra ∧
      (∀ d ∈ extra, d = root ++ [x] ∧ d ∉ fs.dirs) ∧
      (fs.dirs.Nodup → fs2.dirs.Nodup) := by
  unfold makedirs at h
  split at h
  · exact absurd h (by simp)
  · rw [Option.some_inj] at h
    subst h
    refine ⟨rfl, rfl, (pathPrefixes (root ++ [x])).filter (· ∉ fs.dirs),
      rfl, ?_, ?_⟩
    · intro d hd
      rw [List.mem_filter] at hd
      obtain ⟨hd1, hd2⟩ := hd
      have hd2' : d ∉ fs.dirs := by simpa using hd2
      refine ⟨?_, hd2'⟩
      rw [mem_pathPrefixes] at hd1
      obtain ⟨i, hi, rfl⟩ := hd1
      simp only [List.length_append, List.length_singleton] at hi
      by_cases hile : i + 1 ≤ root.length
      · exfalso
        refine hd2' (hpre _ ?_)
        rw [mem_pathPrefixes]
        refine ⟨i, by omega, ?_⟩
        rw [List.take_append_of_le_length hile]
      · have : i + 1 = root.length + 1 := by omega
        rw [this]
        have hlen : root.length + 1 = (root ++ [x]).length := by simp
        rw [hlen, List.take_length]
    · intro hnd
      rw [List.nodup_append]
      refine ⟨hnd, List.Nodup.filter _ (pathPrefixes_nodup _), ?_⟩
      intro d hd hd2
      rw [List.mem_filter] at hd2
      have : d ∉ fs.dirs := by simpa using hd2.2
      exact this hd

theorem makedirs_loopInv {root : FsPath} {fs0 : FS} {orig : List String}
    {st : SortState} {processed : List String} {count : Nat} {x : String}
    {fs2 : FS} (hroot : root ≠ [])
    (hInv : LoopInv root fs0 orig st processed count)
    (h : makedirs st.fs (root ++ [x]) = some fs2) :
    LoopInv root fs0 orig { st with fs := fs2 } processed count := by
  obtain ⟨hfiles, hmf, extra, hdirs, hextra, hnd⟩ :=
    makedirs_root_ext hroot hInv.core.rootPrefixes h
  refine
    { core :=
        { filesND := by rw [hfiles]; exact hInv.core.filesND
          moveFailsEq := by rw [hmf]; exact hInv.core.moveFailsEq
          dirsND := hnd hInv.core.dirsND
          dirsAppend := ?_
          rootPrefixes := by
            intro q hq
            rw [hdirs]
            exact List.mem_append.mpr (Or.inl (hInv.core.rootPrefixes q hq))
          recParents := by
            intro r hr
            rw [hdirs]
            exact List.mem_append.mpr (Or.inl (hInv.core.recParents r hr))
          spec := by
            intro hmf0
            rw [hfiles]
            exact hInv.core.spec hmf0 }
      rootFile_mem := by
        intro g hg
        rw [hfiles] at hg
        exact hInv.rootFile_mem g hg
      prND := hInv.prND
      prSub := hInv.prSub
      cntEq := hInv.cntEq
      att_pr := hInv.att_pr
      att_unpr := by
        intro g hgo hgp
        obtain ⟨h1, h2⟩ := hInv.att_unpr g hgo hgp
        rw [hfiles]
        exact ⟨h1, h2⟩
      recLe := hInv.recLe
      recEq := hInv.recEq
      succLe := hInv.succLe
      stay := by
        intro g hgo hs
        rw [hfiles]
        exact hInv.stay g hgo hs }
  obtain ⟨created, hc1, hc2⟩ := hInv.core.dirsAppend
  refine ⟨created ++ extra, ?_, ?_⟩
  · rw [hdirs, hc1, List.append_assoc]
  · intro d hd
    rcases List.mem_append.mp hd with h1 | h1
    · exact hc2 d h1
    · obtain ⟨h2, _⟩ := hextra d h1
      subst h2
      refine ⟨?_, List.prefix_append _ _⟩
      intro hcon
      have := congrArg List.length hcon
      simp at this

theorem groupFold_spec (root : FsPath) (fs0 : FS) (orig : List String)
    (folder : String) (total : Nat) (hroot : root ≠ []) :
    ∀ (l : List String) (st : SortState) (processed : List String)
      (count : Nat),
      LoopInv root fs0 orig st processed count → l ⊆ orig →
      LoopInv root fs0 orig
        (l.foldl (groupStep root folder total) (st, processed, count)).1
        (l.foldl (groupStep root folder total) (st, processed, count)).2.1
        (l.foldl (groupStep root folder total) (st, processed, count)).2.2 ∧
      (∀ x ∈ processed,
        x ∈ (l.foldl (groupStep root folder total) (st, processed, count)).2.1) ∧
      (∀ x ∈ l,
        x ∈ (l.foldl (groupStep root folder total) (st, processed, count)).2.1) := by
  intro l
  induction l with
  | nil =>
    intro st processed count hInv _
    exact ⟨hInv, fun x hx => hx, by simp⟩
  | cons f rest ih =>
    intro st processed count hInv hsub
    have hfo : f ∈ orig := hsub (List.mem_cons_self _ _)
    have hrsub : rest ⊆ orig := fun y hy => hsub (List.mem_cons_of_mem _ hy)
    rw [List.foldl_cons]
    by_cases hfp : f ∈ processed
    · have hstep : groupStep root folder total (st, processed, count) f =
          (st, processed, count) := by
        unfold groupStep
        dsimp only
        rw [if_pos hfp]
      rw [hstep]
      obtain ⟨h1, h2, h3⟩ := ih st processed count hInv hrsub
      refine ⟨h1, h2, ?_⟩
      intro x hx
      rcases List.mem_cons.mp hx with rfl | hx1
      · exact h2 x hfp
      · exact h3 x hx1
    · have hex : pathExists st.fs (root ++ [f]) :=
        Or.inl (hInv.att_unpr f hfo hfp).2
      have hstep : groupStep root folder total (st, processed, count) f =
          ({ (move_file_handling_conflicts st (root ++ [f])
              (root ++ [folder, f])).1 with
              progress :=
                (move_file_handling_conflicts st (root ++ [f])
                  (root ++ [folder, f])).1.progress ++
                  [(count + 1) * 100 / total] },
            processed ++ [f], count + 1) := by
        unfold groupStep
        dsimp only
        rw [if_neg hfp, if_pos hex]
      rw [hstep]
      have hInv2 := loopInv_set_progress
        (mfhc_loop_step root fs0 orig st processed count f folder hroot hInv
          hfo hfp)
        ((move_file_handling_conflicts st (root ++ [f])
          (root ++ [folder, f])).1.progress ++ [(count + 1) * 100 / total])
      obtain ⟨h1, h2, h3⟩ := ih _ _ _ hInv2 hrsub
      refine ⟨h1, ?_, ?_⟩
      · intro x hx
        exact h2 x (List.mem_append.mpr (Or.inl hx))
      · intro x hx
        rcases List.mem_cons.mp hx with rfl | hx1
        · exact h2 x (List.mem_append.mpr (Or.inr (by simp)))
        · exact h3 x hx1

theorem miscFold_spec (root : FsPath) (fs0 : FS) (orig : List String)
    (total : Nat) (hroot : root ≠ []) :
    ∀ (l : List String) (st : SortState) (processed : List String)
      (count : Nat),
      LoopInv root fs0 orig st processed count → l ⊆ orig → l.Nodup →
      (∀ x ∈ l, x ∉ processed) →
      LoopInv root fs0 orig
        (l.foldl (miscStep root total) (st, processed, count)).1
        (l.foldl (miscStep root total) (st, processed, count)).2.1
        (l.foldl (miscStep root total) (st, processed, count)).2.2 ∧
      (∀ x ∈ processed,
        x ∈ (l.foldl (miscStep root total) (st, processed, count)).2.1) ∧
      (∀ x ∈ l,
        x ∈ (l.foldl (miscStep root total) (st, processed, count)).2.1) := by
  intro l
  induction l with
  | nil =>
    intro st processed count hInv _ _ _
    exact ⟨hInv, fun x hx => hx, by simp⟩
  | cons f rest ih =>
    intro st processed count hInv hsub hnd hunp
    have hfo : f ∈ orig := hsub (List.mem_cons_self _ _)
    have hfp : f ∉ processed := hunp f (List.mem_cons_self _ _)
    rw [List.foldl_cons]
    have hstep : miscStep root total (st, processed, count) f =
        ({ (move_file_handling_conflicts st (root ++ [f])
            (root ++ ["Miscellaneous", f])).1 with
            progress :=
              (move_file_handling_conflicts st (root ++ [f])
                (root ++ ["Miscellaneous", f])).1.progress ++
                [(count + 1) * 100 / total] },
          processed ++ [f], count + 1) := by
      unfold miscStep
      rfl
    rw [hstep]
    have hInv2 := loopInv_set_progress
      (mfhc_loop_step root fs0 orig st processed count f "Miscellaneous"
        hroot hInv hfo hfp)
      ((move_file_handling_conflicts st (root ++ [f])
        (root ++ ["Miscellaneous", f])).1.progress ++
        [(count + 1) * 100 / total])
    have hrest_unp : ∀ x ∈ rest, x ∉ processed ++ [f] := by
      intro x hx hmem
      rcases List.mem_append.mp hmem with h1 | h1
      · exact hunp x (List.mem_cons_of_mem _ hx) h1
      · simp at h1
        subst h1
        exact (List.nodup_cons.mp hnd).1 hx
    obtain ⟨h1, h2, h3⟩ := ih _ _ _ hInv2
      (fun y hy => hsub (List.mem_cons_of_mem _ hy))
      (List.nodup_cons.mp hnd).2 hrest_unp
    refine ⟨h1, ?_, ?_⟩
    · intro x hx
      exact h2 x (List.mem_append.mpr (Or.inl hx))
    · intro x hx
      rcases List.mem_cons.mp hx with rfl | hx1
      · exact h2 x (List.mem_append.mpr (Or.inr (by simp)))
      · exact h3 x hx1

theorem two_members {l : List String} (h2 : 2 ≤ l.length) (hnd : l.Nodup) :
    ∃ f1 f2, f1 ∈ l ∧ f2 ∈ l ∧ f1 ≠ f2 := by
  match l, h2 with
  | f1 :: f2 :: t, _ =>
    refine ⟨f1, f2, List.mem_cons_self _ _,
      List.mem_cons_of_mem _ (List.mem_cons_self _ _), ?_⟩
    intro h
    rw [h] at hnd
    exact (List.nodup_cons.mp hnd).1 (List.mem_cons_self _ _)

theorem sortLoop_spec (root : FsPath) (fs0 : FS) (orig : List String)
    (total : Nat) (hroot : root ≠ []) :
    ∀ (fuel : Nat) (st : SortState) (processed : List String) (count : Nat),
      LoopInv root fs0 orig st processed count →
      ((get_all_files st.fs root).filter (· ∉ processed)).length < fuel →
      (∀ stx, sortLoop root total fuel st processed count ≠ .fuelOut stx) ∧
      (∀ stx, sortLoop root total fuel st processed count = .done stx →
        LoopInv root fs0 orig stx stx.processed stx.processed_count ∧
        ∀ f ∈ orig, f ∈ stx.processed) := by
  intro fuel
  induction fuel using Nat.strong_induction_on with
  | _ fuel ih =>
    intro st processed count hInv hlen
    match fuel, hlen with
    | fuel + 1, hlen =>
      have hrem_sub : ∀ x ∈ (get_all_files st.fs root).filter (· ∉ processed),
          x ∈ orig := by
        intro x hx
        rw [List.mem_filter] at hx
        exact hInv.rootFile_mem x (mem_get_all_files.mp hx.1)
      have hrem_unp : ∀ x ∈ (get_all_files st.fs root).filter (· ∉ processed),
          x ∉ processed := by
        intro x hx
        rw [List.mem_filter] at hx
        simpa using hx.2
      have hrem_nd : ((get_all_files st.fs root).filter (· ∉ processed)).Nodup :=
        List.Nodup.filter _ (get_all_files_nodup hInv.core.filesND)
      have hrem_mem : ∀ f ∈ orig, f ∉ processed →
          f ∈ (get_all_files st.fs root).filter (· ∉ processed) := by
        intro f hfo hfp
        rw [List.mem_filter]
        exact ⟨mem_get_all_files.mpr (hInv.att_unpr f hfo hfp).2, by simpa⟩
      rw [sortLoop]
      by_cases hempty :
          ((get_all_files st.fs root).filter (· ∉ processed)).isEmpty
      · rw [if_pos hempty]
        refine ⟨fun stx h => by simp at h, fun stx h => ?_⟩
        rw [LoopResult.done.injEq] at h
        subst h
        refine ⟨loopInv_snapshot hInv, ?_⟩
        intro f hfo
        by_contra hfp
        have := hrem_mem f hfo hfp
        rw [List.isEmpty_iff] at hempty
        rw [hempty] at this
        simp at this
      · rw [if_neg hempty]
        rcases hgroups : build_similarity_groups
            ((get_all_files st.fs root).filter (· ∉ processed)) with
          _ | ⟨⟨common_str, file_set⟩, grest⟩
        · -- Miscellaneous branch
          rcases hmk : makedirs st.fs (root ++ ["Miscellaneous"]) with _ | fs2
          · refine ⟨fun stx h => by simp at h, fun stx h => by simp at h⟩
          · have hInv2 := makedirs_loopInv hroot hInv hmk
            have hfiles2 : ({ st with fs := fs2 } : SortState).fs.files =
                st.fs.files := (makedirs_root_ext hroot
                  hInv.core.rootPrefixes hmk).1
            have hfold := miscFold_spec root fs0 orig total hroot
              ((get_all_files st.fs root).filter (· ∉ processed))
              { st with fs := fs2 } processed count hInv2 hrem_sub hrem_nd
              hrem_unp
            refine ⟨fun stx h => by simp at h, fun stx h => ?_⟩
            rw [LoopResult.done.injEq] at h
            subst h
            refine ⟨loopInv_snapshot hfold.1, ?_⟩
            intro f hfo
            by_cases hfp : f ∈ processed
            · exact hfold.2.1 f hfp
            · exact hfold.2.2 f (hrem_mem f hfo hfp)
        · -- group branch
          have hwf : GroupWF ((get_all_files st.fs root).filter (· ∉ processed))
              (common_str, file_set) :=
            build_similarity_groups_wf _ hrem_nd _
              (hgroups ▸ List.mem_cons_self _ _)
          rcases hmk : makedirs st.fs
              (root ++ [sanitizeFolderName
                (if pyStrip common_str = "" then "Common_Group"
                 else pyStrip common_str)]) with _ | fs2
          · refine ⟨fun stx h => ?_, fun stx h => ?_⟩ <;>
              dsimp only at h <;> rw [hmk] at h <;> simp at h
          · have hInv2 := makedirs_loopInv hroot hInv hmk
            have hfsub : file_set ⊆ orig := fun y hy => hrem_sub y (hwf.2.2 hy)
            have hfold := groupFold_spec root fs0 orig
              (sanitizeFolderName
                (if pyStrip common_str = "" then "Common_Group"
                 else pyStrip common_str))
              total hroot file_set
              { st with fs := fs2 } processed count hInv2 hfsub
            set triple := file_set.foldl
              (groupStep root
                (sanitizeFolderName
                  (if pyStrip common_str = "" then "Common_Group"
                   else pyStrip common_str)) total)
              ({ st with fs := fs2 }, processed, count) with htriple
            have hInv3 := loopInv_set_progress hfold.1
              (triple.1.progress ++ [triple.2.2 * 100 / total])
            -- termination: the remaining set shrinks by at least two
            obtain ⟨f1, f2, hf1, hf2, hf12⟩ := two_members hwf.1 hwf.2.1
            have hf1p : f1 ∈ triple.2.1 := hfold.2.2 f1 hf1
            have hf2p : f2 ∈ triple.2.1 := hfold.2.2 f2 hf2
            have hrem'_sub : ∀ x ∈ (get_all_files triple.1.fs root).filter
                (· ∉ triple.2.1),
                x ∈ (((get_all_files st.fs root).filter
                  (· ∉ processed)).erase f1).erase f2 := by
              intro x hx
              rw [List.mem_filter] at hx
              have hxp' : x ∉ triple.2.1 := by simpa using hx.2
              have hxo : x ∈ orig :=
                hfold.1.rootFile_mem x (mem_get_all_files.mp hx.1)
              have hxp : x ∉ processed := fun h => hxp' (hfold.2.1 x h)
              have hxrem := hrem_mem x hxo hxp
              have hxne1 : x ≠ f1 := fun h => hxp' (h ▸ hf1p)
              have hxne2 : x ≠ f2 := fun h => hxp' (h ▸ hf2p)
              rw [List.Nodup.mem_erase_iff (List.Nodup.erase _ hrem_nd),
                List.Nodup.mem_erase_iff hrem_nd]
              exact ⟨hxne2, hxne1, hxrem⟩
            have hrem'_nd : ((get_all_files triple.1.fs root).filter
                (· ∉ triple.2.1)).Nodup :=
              List.Nodup.filter _ (get_all_files_nodup hfold.1.core.filesND)
            have hlen' : ((get_all_files triple.1.fs root).filter
                (· ∉ triple.2.1)).length <
                ((get_all_files st.fs root).filter (· ∉ processed)).length := by
              have hsp := List.Subperm.length_le
                (List.Nodup.subperm hrem'_nd hrem'_sub)
              have hlf1 : (((get_all_files st.fs root).filter
                  (· ∉ processed)).erase f1).length =
                  ((get_all_files st.fs root).filter (· ∉ processed)).length
                    - 1 :=
                List.length_erase_of_mem (hrem_mem f1 (hfsub hf1)
                  (hrem_unp f1 (hwf.2.2 hf1)))
              have hf2e : f2 ∈ ((get_all_files st.fs root).filter
                  (· ∉ processed)).erase f1 := by
                rw [List.Nodup.mem_erase_iff hrem_nd]
                exact ⟨hf12.symm, hrem_mem f2 (hfsub hf2)
                  (hrem_unp f2 (hwf.2.2 hf2))⟩
              have hlf2 : ((((get_all_files st.fs root).filter
                  (· ∉ processed)).erase f1).erase f2).length =
                  (((get_all_files st.fs root).filter
                    (· ∉ processed)).erase f1).length - 1 :=
                List.length_erase_of_mem hf2e
              have hpos : 1 ≤ ((get_all_files st.fs root).filter
                  (· ∉ processed)).length :=
                List.length_pos.mpr (fun hc => by
                  rw [hc] at hempty; simp at hempty)
              omega
            have hrec := ih fuel (Nat.lt_succ_self _)
              { triple.1 with progress :=
                  triple.1.progress ++ [triple.2.2 * 100 / total] }
              triple.2.1 triple.2.2 hInv3
              (by
                show ((get_all_files triple.1.fs root).filter
                  (· ∉ triple.2.1)).length < fuel
                omega)
            dsimp only
            rw [hmk]
            exact hrec

/-! ## Lemmas: the media classification pass (claims C9, and C1/C2/C10
preservation through phase 2) -/

theorem ext_disjoint (n : String) :
    endsWithAny n image_extensions = true →
    endsWithAny n video_extensions = true → False := by
  intro h1 h2
  unfold endsWithAny at h1 h2
  rw [List.any_eq_true] at h1 h2
  obtain ⟨e1, he1, hs1⟩ := h1
  obtain ⟨e2, he2, hs2⟩ := h2
  rw [List.isSuffixOf_iff_suffix] at hs1 hs2
  have hpair : ¬ (e1.data <:+ e2.data) ∧ ¬ (e2.data <:+ e1.data) := by
    fin_cases he1 <;> fin_cases he2 <;> exact ⟨by decide, by decide⟩
  rcases List.suffix_or_suffix_of_suffix hs1 hs2 with h | h
  · exact hpair.1 h
  · exact hpair.2 h

theorem pathPrefixes_snoc (base : FsPath) (x : String) :
    pathPrefixes (base ++ [x]) = pathPrefixes base ++ [base ++ [x]] := by
  unfold pathPrefixes
  rw [List.length_append, List.length_singleton, List.range_succ,
    List.map_append]
  congr 1
  · refine List.map_congr_left ?_
    intro i hi
    rw [List.mem_range] at hi
    rw [List.take_append_of_le_length (by omega)]
  · simp

theorem makedirs_snoc_ext {base : FsPath} {x : String} {fs fs2 : FS}
    (hpre : ∀ q ∈ pathPrefixes base, q ∈ fs.dirs)
    (h : makedirs fs (base ++ [x]) = some fs2) :
    fs2.files = fs.files ∧ fs2.moveFails = fs.moveFails ∧
    ∃ extra : List FsPath, fs2.dirs = fs.dirs ++ extra ∧
      (∀ d ∈ extra, d = base ++ [x] ∧ d ∉ fs.dirs) ∧
      (fs.dirs.Nodup → fs2.dirs.Nodup) := by
  unfold makedirs at h
  split at h
  · exact absurd h (by simp)
  · rw [Option.some_inj] at h
    subst h
    refine ⟨rfl, rfl, (pathPrefixes (base ++ [x])).filter (· ∉ fs.dirs),
      rfl, ?_, ?_⟩
    · intro d hd
      rw [List.mem_filter] at hd
      obtain ⟨hd1, hd2⟩ := hd
      have hd2' : d ∉ fs.dirs := by simpa using hd2
      refine ⟨?_, hd2'⟩
      rw [pathPrefixes_snoc, List.mem_append] at hd1
      rcases hd1 with h1 | h1
      · exact absurd (hpre d h1) hd2'
      · simpa using h1
    · intro hnd
      rw [List.nodup_append]
      refine ⟨hnd, List.Nodup.filter _ (pathPrefixes_nodup _), ?_⟩
      intro d hd hd2
      rw [List.mem_filter] at hd2
      have : d ∉ fs.dirs := by simpa using hd2.2
      exact this hd

theorem append_two_inj {root : FsPath} {a b x y : String}
    (h : root ++ [a, b] = root ++ [x, y]) : a = x ∧ b = y := by
  have := List.append_cancel_left h
  simp at this
  exact this

theorem three_comp_ne_two_comp {root : FsPath} {a b c x y : String} :
    root ++ [a, b, c] ≠ root ++ [x, y] := by
  intro h
  have := congrArg List.length h
  simp [List.length_append] at this

/-- Effect of one media move (from a top-level subfolder `subdir` into its
`sub` split folder) on the core invariant and on paths outside its own
source. -/
theorem mfhc_media_step (root : FsPath) (fs0 : FS) (st : SortState)
    (subdir : FsPath) (f sub : String) (hcore : CoreInv root fs0 st)
    (hsubdir : subdir ∈ st.fs.dirs)
    (hsublen : subdir.length = root.length + 1)
    (hsrc : (subdir ++ [f]) ∈ st.fs.files) :
    CoreInv root fs0
      (move_file_handling_conflicts st (subdir ++ [f])
        (subdir ++ [sub, f])).1 ∧
    (move_file_handling_conflicts st (subdir ++ [f])
      (subdir ++ [sub, f])).1.attempts =
      st.attempts ++ [(subdir ++ [f], subdir ++ [sub, f])] ∧
    st.statuses <+: (move_file_handling_conflicts st (subdir ++ [f])
      (subdir ++ [sub, f])).1.statuses ∧
    (move_file_handling_conflicts st (subdir ++ [f])
      (subdir ++ [sub, f])).1.fs.dirs = st.fs.dirs ∧
    (move_file_handling_conflicts st (subdir ++ [f])
      (subdir ++ [sub, f])).1.processed = st.processed ∧
    (move_file_handling_conflicts st (subdir ++ [f])
      (subdir ++ [sub, f])).1.processed_count = st.processed_count ∧
    (∀ p : FsPath, p ≠ subdir ++ [f] →
      srcCount (move_file_handling_conflicts st
        (subdir ++ [f]) (subdir ++ [sub, f])).1.moved_files p =
      srcCount st.moved_files p) ∧
    (∀ p : FsPath, p ≠ subdir ++ [f] →
      srcCount (move_file_handling_conflicts st
        (subdir ++ [f]) (subdir ++ [sub, f])).1.successes p =
      srcCount st.successes p) ∧
    (∀ p : FsPath, p ≠ subdir ++ [f] → p.length < root.length + 3 →
      (p ∈ (move_file_handling_conflicts st (subdir ++ [f])
        (subdir ++ [sub, f])).1.fs.files ↔ p ∈ st.fs.files)) := by
  set src := subdir ++ [f] with hsrc_def
  set dst := subdir ++ [sub, f] with hdst_def
  obtain ⟨hatt, hdirs, hmf, _, _, hproc, hpc, _, hstat, hcase⟩ :=
    mfhc_cases st src dst
  have hdstne : dst ≠ [] := by
    rw [hdst_def]
    intro h
    have := congrArg List.length h
    simp at this
  have hfdlen : ∀ fd : FsPath, (fd = dst ∨ ∃ n, fd = cfPath dst n) →
      fd.length = root.length + 3 := by
    rintro fd (rfl | ⟨n, rfl⟩)
    · rw [hdst_def]
      simp [List.length_append]
      omega
    · rw [cfPath_length hdstne, hdst_def]
      simp [List.length_append]
      omega
  refine ⟨?_, hatt, hstat, hdirs, hproc, hpc, ?_, ?_, ?_⟩
  · -- CoreInv
    refine
      { filesND := ?filesND
        moveFailsEq := by rw [hmf]; exact hcore.moveFailsEq
        dirsND := by rw [hdirs]; exact hcore.dirsND
        dirsAppend := by rw [hdirs]; exact hcore.dirsAppend
        rootPrefixes := by
          intro q hq
          rw [hdirs]
          exact hcore.rootPrefixes q hq
        recParents := ?recParents
        spec := ?spec }
    case filesND =>
      rcases hcase with ⟨_, hfs, _⟩ | ⟨fd, _, hfs, _⟩ |
        ⟨fd, _, _, _, _, hfresh, hshape, _, _, hfiles⟩
      · rw [hfs]; exact hcore.filesND
      · rw [hfs]; exact hcore.filesND
      · rw [hfiles]
        refine List.Nodup.cons ?_ (List.Nodup.erase _ hcore.filesND)
        intro hmem
        exact hfresh (Or.inl (List.mem_of_mem_erase hmem))
    case recParents =>
      have hnewrec : ∀ fd : FsPath,
          ∀ r ∈ st.moved_files ++ [(src, fd)],
            r.1.dropLast ∈ (move_file_handling_conflicts st src dst).1.fs.dirs := by
        intro fd r hr
        rw [hdirs]
        rcases List.mem_append.mp hr with h | h
        · exact hcore.recParents r h
        · simp only [List.mem_singleton] at h
          subst h
          have hd : src.dropLast = subdir := by
            rw [hsrc_def, List.dropLast_concat]
          rw [hd]
          exact hsubdir
      rcases hcase with ⟨_, _, hmoved, _⟩ | ⟨fd, _, _, hmoved, _⟩ |
        ⟨fd, _, hmoved, _⟩
      · rw [hmoved, hdirs]
        exact hcore.recParents
      · rw [hmoved]
        exact hnewrec fd
      · rw [hmoved]
        exact hnewrec fd
    case spec =>
      intro hmf0
      rcases hcase with ⟨_, hfs, hmoved, _⟩ |
        ⟨fd, _, hfs, hmoved, _, _, hfresh, hshape, hwhy⟩ |
        ⟨fd, _, hmoved, _, _, hfresh, hshape, hsrcmem, _, hfiles⟩
      · rw [hfs, hmoved]
        exact hcore.spec hmf0
      · exfalso
        rcases hwhy with h | h
        · rw [hcore.moveFailsEq, hmf0] at h
          simp at h
        · exact h hsrc
      · rw [hmoved, hfiles]
        exact MovesSpec.snoc (hcore.spec hmf0) hsrc
          (fun h => hfresh (Or.inl h))
  · -- moved_files counts away from the source
    intro p hne
    rcases hcase with ⟨_, _, hmoved, _⟩ | ⟨fd, _, _, hmoved, _⟩ |
      ⟨fd, _, hmoved, _⟩
    · rw [hmoved]
    · rw [hmoved, srcCount_append]
      simp [Ne.symm hne]
    · rw [hmoved, srcCount_append]
      simp [Ne.symm hne]
  · -- successes counts away from the source
    intro p hne
    rcases hcase with ⟨_, _, _, hsuccs, _⟩ | ⟨fd, _, _, _, hsuccs, _⟩ |
      ⟨fd, _, _, hsuccs, _⟩
    · rw [hsuccs]
    · rw [hsuccs]
    · rw [hsuccs, srcCount_append]
      simp [Ne.symm hne]
  · -- other files preserved
    intro p hne hlen
    rcases hcase with ⟨_, hfs, _⟩ | ⟨fd, _, hfs, _⟩ |
      ⟨fd, _, _, _, _, hfresh, hshape, _, _, hfiles⟩
    · rw [hfs]
    · rw [hfs]
    · rw [hfiles]
      have hpfd : p ≠ fd := by
        intro h
        rw [h] at hlen
        rw [hfdlen fd hshape] at hlen
        omega
      constructor
      · intro hmem
        rcases List.mem_cons.mp hmem with h | h
        · exact absurd h hpfd
        · exact List.mem_of_mem_erase h
      · intro hmem
        exact List.mem_cons_of_mem _ ((List.mem_erase_of_ne hne).mpr hmem)

/-- `os.makedirs` on a media split folder preserves the core invariant. -/
theorem makedirs_media_coreInv {root : FsPath} {fs0 : FS} {st : SortState}
    {item sub : String} {fs2 : FS}
    (hcore : CoreInv root fs0 st)
    (hsubdir : (root ++ [item]) ∈ st.fs.dirs)
    (hmk : makedirs st.fs ((root ++ [item]) ++ [sub]) = some fs2) :
    CoreInv root fs0 { st with fs := fs2 } ∧
    fs2.files = st.fs.files ∧ st.fs.dirs <+: fs2.dirs := by
  have hpre : ∀ q ∈ pathPrefixes (root ++ [item]), q ∈ st.fs.dirs := by
    intro q hq
    rw [pathPrefixes_snoc] at hq
    rcases List.mem_append.mp hq with h | h
    · exact hcore.rootPrefixes q h
    · rw [List.mem_singleton] at h
      subst h
      exact hsubdir
  obtain ⟨hfiles, hmf, extra, hdirs, hextra, hnd⟩ := makedirs_snoc_ext hpre hmk
  refine ⟨?_, hfiles, hdirs ▸ List.prefix_append _ _⟩
  obtain ⟨created, hc, hcp⟩ := hcore.dirsAppend
  refine
    { filesND := by rw [hfiles]; exact hcore.filesND
      moveFailsEq := by rw [hmf]; exact hcore.moveFailsEq
      dirsND := hnd hcore.dirsND
      dirsAppend := ?_
      rootPrefixes := ?_
      recParents := ?_
      spec := ?_ }
  · refine ⟨created ++ extra, ?_, ?_⟩
    · show fs2.dirs = fs0.dirs ++ (created ++ extra)
      rw [hdirs, hc, List.append_assoc]
    · intro d hd
      rcases List.mem_append.mp hd with h | h
      · exact hcp d h
      · obtain ⟨hdeq, _⟩ := hextra d h
        subst hdeq
        constructor
        · intro hcon
          have := congrArg List.length hcon
          simp [List.length_append] at this
        · exact ⟨[item] ++ [sub], (List.append_assoc root [item] [sub]).symm⟩
  · intro q hq
    show q ∈ fs2.dirs
    rw [hdirs]
    exact List.mem_append_left _ (hcore.rootPrefixes q hq)
  · intro r hr
    show r.1.dropLast ∈ fs2.dirs
    rw [hdirs]
    exact List.mem_append_left _ (hcore.recParents r hr)
  · intro hmf0
    show MovesSpec fs0.files st.moved_files fs2.files
    rw [hfiles]
    exact hcore.spec hmf0

/-- Effect of moving one list of media files of a subfolder into its `sub`
split folder: the invariant is kept, bookkeeping outside the moved sources
is untouched, and every new attempt names one of the listed files. -/
theorem mediaFold_spec (root : FsPath) (fs0 : FS) (subdir : FsPath)
    (sub : String) (hsublen : subdir.length = root.length + 1) :
    ∀ (names : List String) (st : SortState) (cnt : Nat),
      CoreInv root fs0 st →
      subdir ∈ st.fs.dirs →
      (∀ f ∈ names, (subdir ++ [f]) ∈ st.fs.files) →
      names.Nodup →
      CoreInv root fs0 (names.foldl (mediaStep subdir sub) (st, cnt)).1 ∧
      (names.foldl (mediaStep subdir sub) (st, cnt)).1.fs.dirs = st.fs.dirs ∧
      st.statuses <+:
        (names.foldl (mediaStep subdir sub) (st, cnt)).1.statuses ∧
      (names.foldl (mediaStep subdir sub) (st, cnt)).1.processed =
        st.processed ∧
      (names.foldl (mediaStep subdir sub) (st, cnt)).1.processed_count =
        st.processed_count ∧
      (∃ newA, (names.foldl (mediaStep subdir sub) (st, cnt)).1.attempts =
          st.attempts ++ newA ∧
        ∀ r ∈ newA, ∃ f ∈ names, r.1 = subdir ++ [f]) ∧
      (∀ p : FsPath, (∀ f ∈ names, p ≠ subdir ++ [f]) →
        srcCount (names.foldl (mediaStep subdir sub) (st, cnt)).1.moved_files
            p = srcCount st.moved_files p ∧
        srcCount (names.foldl (mediaStep subdir sub) (st, cnt)).1.successes
            p = srcCount st.successes p ∧
        (p.length < root.length + 3 →
          (p ∈ (names.foldl (mediaStep subdir sub) (st, cnt)).1.fs.files ↔
            p ∈ st.fs.files))) := by
  intro names
  induction names with
  | nil =>
    intro st cnt hcore _ _ _
    exact ⟨hcore, rfl, List.prefix_refl _, rfl, rfl,
      ⟨[], by simp, by simp⟩, fun p _ => ⟨rfl, rfl, fun _ => Iff.rfl⟩⟩
  | cons f rest ih =>
    intro st cnt hcore hsubdir hnames hnd
    have hsrc : (subdir ++ [f]) ∈ st.fs.files :=
      hnames f (List.mem_cons_self _ _)
    obtain ⟨hcore2, hatt2, hstat2, hdirs2, hproc2, hpc2, hmoved2, hsucc2,
      hpres2⟩ := mfhc_media_step root fs0 st subdir f sub hcore hsubdir
        hsublen hsrc
    set st2 := (move_file_handling_conflicts st (subdir ++ [f])
      (subdir ++ [sub, f])).1 with hst2
    have hstep : mediaStep subdir sub (st, cnt) f = (st2, cnt + 1) := rfl
    rw [List.foldl_cons, hstep]
    have hfrest : f ∉ rest := (List.nodup_cons.mp hnd).1
    have hndrest : rest.Nodup := (List.nodup_cons.mp hnd).2
    have hrest_mem : ∀ g ∈ rest, (subdir ++ [g]) ∈ st2.fs.files := by
      intro g hg
      have hne : (subdir ++ [g] : FsPath) ≠ subdir ++ [f] := by
        intro h
        exact hfrest (append_singleton_inj h ▸ hg)
      have hlen : (subdir ++ [g] : FsPath).length < root.length + 3 := by
        rw [List.length_append, hsublen]
        simp
      exact (hpres2 _ hne hlen).mpr (hnames g (List.mem_cons_of_mem _ hg))
    obtain ⟨ihcore, ihdirs, ihstat, ihproc, ihpc, ⟨newA, ihatt, ihattP⟩,
      ihpres⟩ := ih st2 (cnt + 1) hcore2 (hdirs2 ▸ hsubdir) hrest_mem hndrest
    refine ⟨ihcore, by rw [ihdirs, hdirs2], hstat2.trans ihstat,
      by rw [ihproc, hproc2], by rw [ihpc, hpc2], ?_, ?_⟩
    · refine ⟨(subdir ++ [f], subdir ++ [sub, f]) :: newA, ?_, ?_⟩
      · rw [ihatt, hatt2, List.append_assoc]
        rfl
      · intro r hr
        rcases List.mem_cons.mp hr with h | h
        · subst h
          exact ⟨f, List.mem_cons_self _ _, rfl⟩
        · obtain ⟨g, hg, hgeq⟩ := ihattP r h
          exact ⟨g, List.mem_cons_of_mem _ hg, hgeq⟩
    · intro p hp
      have hpf : p ≠ subdir ++ [f] := hp f (List.mem_cons_self _ _)
      have hprest : ∀ g ∈ rest, p ≠ subdir ++ [g] := fun g hg =>
        hp g (List.mem_cons_of_mem _ hg)
      obtain ⟨ihm, ihs, ihf⟩ := ihpres p hprest
      refine ⟨by rw [ihm]; exact hmoved2 p hpf,
        by rw [ihs]; exact hsucc2 p hpf, ?_⟩
      intro hlen
      rw [ihf hlen]
      exact hpres2 p hpf hlen

/-- Effect of one `mediaBlock` call (one "Images" or "Videos" block of
src/main.py:149-172) when it does not raise. -/
theorem mediaBlock_spec (root : FsPath) (fs0 : FS) (item sub : String)
    (names : List String) (st : SortState) (cnt : Nat)
    (hcore : CoreInv root fs0 st)
    (hsubdir : (root ++ [item]) ∈ st.fs.dirs)
    (hnames : ∀ f ∈ names, ((root ++ [item]) ++ [f]) ∈ st.fs.files)
    (hnd : names.Nodup)
    {st2 : SortState} {cnt2 : Nat}
    (h : mediaBlock (root ++ [item]) sub names st cnt = some (st2, cnt2)) :
    CoreInv root fs0 st2 ∧
    st.fs.dirs <+: st2.fs.dirs ∧
    st.statuses <+: st2.statuses ∧
    st2.processed = st.processed ∧
    st2.processed_count = st.processed_count ∧
    (∃ newA, st2.attempts = st.attempts ++ newA ∧
      ∀ r ∈ newA, ∃ f ∈ names, r.1 = (root ++ [item]) ++ [f]) ∧
    (∀ p : FsPath, (∀ f ∈ names, p ≠ (root ++ [item]) ++ [f]) →
      srcCount st2.moved_files p = srcCount st.moved_files p ∧
      srcCount st2.successes p = srcCount st.successes p ∧
      (p.length < root.length + 3 → (p ∈ st2.fs.files ↔ p ∈ st.fs.files))) := by
  unfold mediaBlock at h
  split at h
  · rw [Option.some_inj, Prod.mk.injEq] at h
    obtain ⟨h1, _⟩ := h
    subst h1
    exact ⟨hcore, List.prefix_refl _, List.prefix_refl _, rfl, rfl,
      ⟨[], by simp, by simp⟩, fun p _ => ⟨rfl, rfl, fun _ => Iff.rfl⟩⟩
  · rcases hmk : makedirs st.fs ((root ++ [item]) ++ [sub]) with _ | fs2
    · rw [hmk] at h
      simp at h
    · rw [hmk] at h
      rw [Option.some_inj] at h
      obtain ⟨hcore1, hfiles1, hdirs1⟩ :=
        makedirs_media_coreInv hcore hsubdir hmk
      have hsublen : (root ++ [item] : FsPath).length = root.length + 1 := by
        simp
      obtain ⟨fcore, fdirs, fstat, fproc, fpc, ⟨newA, fatt, fattP⟩, fpres⟩ :=
        mediaFold_spec root fs0 (root ++ [item]) sub hsublen names
          { st with fs := fs2 } cnt hcore1
          (hdirs1.sublist.mem hsubdir)
          (fun f hf => by
            show ((root ++ [item]) ++ [f]) ∈ fs2.files
            rw [hfiles1]
            exact hnames f hf)
          hnd
      have hst2 : st2 =
          (names.foldl (mediaStep (root ++ [item]) sub)
            ({ st with fs := fs2 }, cnt)).1 := by
        rw [h]
      subst hst2
      refine ⟨fcore, ?_, fstat, fproc, fpc, ⟨newA, fatt, fattP⟩, ?_⟩
      · rw [fdirs]
        exact hdirs1
      · intro p hp
        obtain ⟨hm, hs, hf⟩ := fpres p hp
        refine ⟨hm, hs, ?_⟩
        intro hlen
        rw [hf hlen]
        show p ∈ fs2.files ↔ p ∈ st.fs.files
        rw [hfiles1]

/-- Effect of the media subfolder loop (src/main.py:140-172) on a normal
exit: every move it attempts originates inside one of the listed
subfolders, and nothing directly under the root is touched. -/
theorem mediaGo_spec (root : FsPath) (fs0 : FS) :
    ∀ (items : List String) (st : SortState) (ic vc : Nat),
      CoreInv root fs0 st →
      (∀ item ∈ items, (root ++ [item]) ∈ st.fs.dirs) →
      ∀ st2, mediaGo root items st ic vc = .ok st2 →
      CoreInv root fs0 st2 ∧
      st.fs.dirs <+: st2.fs.dirs ∧
      st.statuses <+: st2.statuses ∧
      st2.processed = st.processed ∧
      st2.processed_count = st.processed_count ∧
      (∃ newA, st2.attempts = st.attempts ++ newA ∧
        ∀ r ∈ newA, ∃ item ∈ items, ∃ f, r.1 = (root ++ [item]) ++ [f]) ∧
      (∀ p : FsPath, p.length ≤ root.length + 1 →
        srcCount st2.moved_files p = srcCount st.moved_files p ∧
        srcCount st2.successes p = srcCount st.successes p ∧
        (p ∈ st2.fs.files ↔ p ∈ st.fs.files)) := by
  intro items
  induction items with
  | nil =>
    intro st ic vc hcore _ st2 h
    rw [mediaGo] at h
    rw [MediaResult.ok.injEq] at h
    split at h <;> subst h
    · exact ⟨⟨hcore.filesND, hcore.moveFailsEq, hcore.dirsND,
        hcore.dirsAppend, hcore.rootPrefixes, hcore.recParents, hcore.spec⟩,
        List.prefix_refl _, List.prefix_append _ _, rfl, rfl,
        ⟨[], by simp, by simp⟩, fun p _ => ⟨rfl, rfl, Iff.rfl⟩⟩
    · exact ⟨hcore, List.prefix_refl _, List.prefix_refl _, rfl, rfl,
        ⟨[], by simp, by simp⟩, fun p _ => ⟨rfl, rfl, Iff.rfl⟩⟩
  | cons item rest ih =>
    intro st ic vc hcore hitems st2 h
    rw [mediaGo] at h
    split at h
    · exact absurd h (by simp)
    rename_i stA icA hImg
    split at h
    · exact absurd h (by simp)
    rename_i stB vcB hVid
    have hsubdir : (root ++ [item]) ∈ st.fs.dirs :=
      hitems item (List.mem_cons_self _ _)
    have hfilesnd := @get_all_files_nodup st.fs (root ++ [item])
      hcore.filesND
    obtain ⟨Acore, Adirs, Astat, Aproc, Apc, ⟨newAi, Aatt, AattP⟩, Apres⟩ :=
      mediaBlock_spec root fs0 item "Images"
        ((get_all_files st.fs (root ++ [item])).filter
          (fun f => endsWithAny f image_extensions)) st ic hcore hsubdir
        (fun f hf =>
          mem_get_all_files.mp (List.mem_filter.mp hf).1)
        (List.Nodup.filter _ hfilesnd) hImg
    have hvid_mem : ∀ f ∈ (get_all_files st.fs (root ++ [item])).filter
        (fun f => endsWithAny f video_extensions),
        ((root ++ [item]) ++ [f]) ∈ stA.fs.files := by
      intro f hf
      rw [List.mem_filter] at hf
      have hne : ∀ g ∈ (get_all_files st.fs (root ++ [item])).filter
          (fun g => endsWithAny g image_extensions),
          ((root ++ [item]) ++ [f] : FsPath) ≠ (root ++ [item]) ++ [g] := by
        intro g hg hcon
        rw [List.mem_filter] at hg
        have : f = g := append_singleton_inj hcon
        subst this
        exact ext_disjoint f hg.2 hf.2
      have hlen : ((root ++ [item]) ++ [f] : FsPath).length <
          root.length + 3 := by
        simp [List.length_append]
      exact ((Apres _ hne).2.2 hlen).mpr (mem_get_all_files.mp hf.1)
    obtain ⟨Bcore, Bdirs, Bstat, Bproc, Bpc, ⟨newAv, Batt, BattP⟩, Bpres⟩ :=
      mediaBlock_spec root fs0 item "Videos"
        ((get_all_files st.fs (root ++ [item])).filter
          (fun f => endsWithAny f video_extensions)) stA vc Acore
        (Adirs.sublist.mem hsubdir) hvid_mem
        (List.Nodup.filter _ hfilesnd) hVid
    obtain ⟨Rcore, Rdirs, Rstat, Rproc, Rpc, ⟨newAr, Ratt, RattP⟩, Rpres⟩ :=
      ih stB icA vcB Bcore
        (fun it hit => Bdirs.sublist.mem (Adirs.sublist.mem
          (hitems it (List.mem_cons_of_mem _ hit)))) st2 h
    refine ⟨Rcore, (Adirs.trans Bdirs).trans Rdirs,
      (Astat.trans Bstat).trans Rstat,
      by rw [Rproc, Bproc, Aproc], by rw [Rpc, Bpc, Apc], ?_, ?_⟩
    · refine ⟨newAi ++ (newAv ++ newAr), ?_, ?_⟩
      · rw [Ratt, Batt, Aatt, List.append_assoc, List.append_assoc]
      · intro r hr
        rcases List.mem_append.mp hr with h1 | h1
        · obtain ⟨f, _, hfeq⟩ := AattP r h1
          exact ⟨item, List.mem_cons_self _ _, f, hfeq⟩
        rcases List.mem_append.mp h1 with h2 | h2
        · obtain ⟨f, _, hfeq⟩ := BattP r h2
          exact ⟨item, List.mem_cons_self _ _, f, hfeq⟩
        · obtain ⟨it, hit, f, hfeq⟩ := RattP r h2
          exact ⟨it, List.mem_cons_of_mem _ hit, f, hfeq⟩
    · intro p hplen
      have hpne : ∀ (l : List String) (g : String), g ∈ l →
          p ≠ (root ++ [item]) ++ [g] := by
        intro l g _ hcon
        have := congrArg List.length hcon
        simp [List.length_append] at this
        omega
      obtain ⟨Rm, Rs, Rf⟩ := Rpres p hplen
      obtain ⟨Bm, Bs, Bf⟩ := Bpres p (hpne _)
      obtain ⟨Am, As, Af⟩ := Apres p (hpne _)
      have hlen3 : p.length < root.length + 3 := by omega
      exact ⟨by rw [Rm, Bm, Am], by rw [Rs, Bs, As],
        (Rf.trans (Bf hlen3)).trans (Af hlen3)⟩

/-- `SortingThread.process_media_files` on a normal exit: the core invariant
is kept, every attempted move originates inside some existing top-level
subfolder of the root other than "Images"/"Videos", and files, move records
and success records at paths directly under the root (or shorter) are
untouched. -/
theorem process_media_files_spec (root : FsPath) (fs0 : FS)
    (st : SortState) (hcore : CoreInv root fs0 st)
    (st2 : SortState) (h : process_media_files root st = .ok st2) :
    CoreInv root fs0 st2 ∧
    st.fs.dirs <+: st2.fs.dirs ∧
    st.statuses <+: st2.statuses ∧
    st2.processed = st.processed ∧
    st2.processed_count = st.processed_count ∧
    (∃ newA, st2.attempts = st.attempts ++ newA ∧
      ∀ r ∈ newA, ∃ item f, r.1 = (root ++ [item]) ++ [f] ∧
        (root ++ [item]) ∈ st.fs.dirs ∧ item ≠ "Images" ∧ item ≠ "Videos") ∧
    (∀ p : FsPath, p.length ≤ root.length + 1 →
      srcCount st2.moved_files p = srcCount st.moved_files p ∧
      srcCount st2.successes p = srcCount st.successes p ∧
      (p ∈ st2.fs.files ↔ p ∈ st.fs.files)) := by
  unfold process_media_files at h
  have hitems : ∀ item ∈ (listdirNames st.fs root).filter fun item =>
      decide ((root ++ [item]) ∈ st.fs.dirs) && item ≠ "Images" &&
        item ≠ "Videos",
      (root ++ [item]) ∈ st.fs.dirs ∧ item ≠ "Images" ∧ item ≠ "Videos" := by
    intro item hitem
    rw [List.mem_filter] at hitem
    have := hitem.2
    simp only [Bool.and_eq_true, decide_eq_true_eq] at this
    exact ⟨this.1.1, by simpa using this.1.2, by simpa using this.2⟩
  obtain ⟨Rcore, Rdirs, Rstat, Rproc, Rpc, ⟨newA, Ratt, RattP⟩, Rpres⟩ :=
    mediaGo_spec root fs0 _ st 0 0 hcore
      (fun item hitem => (hitems item hitem).1) st2 h
  refine ⟨Rcore, Rdirs, Rstat, Rproc, Rpc, ⟨newA, Ratt, ?_⟩, Rpres⟩
  intro r hr
  obtain ⟨item, hitem, f, hfeq⟩ := RattP r hr
  obtain ⟨h1, h2, h3⟩ := hitems item hitem
  exact ⟨item, f, hfeq, h1, h2, h3⟩

theorem srcCount_append_full (l1 l2 : List (FsPath × FsPath)) (p : FsPath) :
    srcCount (l1 ++ l2) p = srcCount l1 p + srcCount l2 p := by
  unfold srcCount
  rw [List.filter_append, List.length_append]

theorem srcCount_eq_zero_of_ne (l : List (FsPath × FsPath)) (p : FsPath)
    (h : ∀ r ∈ l, r.1 ≠ p) : srcCount l p = 0 := by
  unfold srcCount
  rw [List.length_eq_zero, List.filter_eq_nil]
  intro r hr
  simpa using h r hr

/-- At the start of the grouping loop the invariant holds for a fresh
engine state over a well-formed filesystem. -/
theorem init_loopInv (root : FsPath) (fs0 : FS)
    (hND : fs0.files.Nodup) (hdND : fs0.dirs.Nodup)
    (hpre : ∀ q ∈ pathPrefixes root, q ∈ fs0.dirs) (sts : List String) :
    LoopInv root fs0 (get_all_files fs0 root)
      { initState fs0 with statuses := sts } [] 0 := by
  refine
    { core := ⟨hND, rfl, hdND, ⟨[], by simp [initState], by simp⟩, hpre,
        by intro r hr; simp [initState] at hr,
        fun _ => MovesSpec.nil _⟩
      rootFile_mem := fun f hf => mem_get_all_files.mpr hf
      prND := List.nodup_nil
      prSub := by simp
      cntEq := rfl
      att_pr := by simp
      att_unpr := fun f hf _ => ⟨rfl, mem_get_all_files.mp hf⟩
      recLe := fun p => Nat.le_refl 0
      recEq := fun p h => absurd h (by simp [initState, srcCount])
      succLe := fun p => Nat.le_refl 0
      stay := fun f hf _ => mem_get_all_files.mp hf }

/-- Summary of a completed run (`SortingThread.run` returning normally):
fuel is never the reason a run stops, and on normal completion every
original root file was attempted exactly once, recorded at most once
(with a conflict status whenever it was not recorded), stayed under the
root unless successfully moved, and the run reports completion. -/
theorem runSort_ok_spec (root : FsPath) (media : Bool) (fs0 : FS)
    (hroot : root ≠ []) (hND : fs0.files.Nodup) (hdND : fs0.dirs.Nodup)
    (hpre : ∀ q ∈ pathPrefixes root, q ∈ fs0.dirs) :
    (∀ stx, runSort root media fs0 ≠ .outOfFuel stx) ∧
    (∀ stF, runSort root media fs0 = .ok stF →
      CoreInv root fs0 stF ∧
      stF.finished = true ∧
      (get_all_files fs0 root ≠ [] → stF.progress.getLast? = some 100) ∧
      stF.processed_count = stF.processed.length ∧
      (∀ f ∈ get_all_files fs0 root,
        f ∈ stF.processed ∧
        srcCount stF.attempts (root ++ [f]) = 1 ∧
        srcCount stF.moved_files (root ++ [f]) ≤ 1 ∧
        (srcCount stF.moved_files (root ++ [f]) = 0 →
          HasConflictStatus stF) ∧
        (srcCount stF.successes (root ++ [f]) = 0 →
          (root ++ [f]) ∈ stF.fs.files))) := by
  unfold runSort
  dsimp only
  by_cases h0 : (get_all_files fs0 root).length = 0
  · rw [if_pos h0]
    refine ⟨fun stx h => by simp at h, fun stF h => ?_⟩
    rw [RunResult.ok.injEq] at h
    subst h
    have horig : get_all_files fs0 root = [] := List.length_eq_zero.mp h0
    refine ⟨⟨hND, rfl, hdND, ⟨[], by simp [initState], by simp⟩, hpre,
      by intro r hr; simp [initState] at hr, fun _ => MovesSpec.nil _⟩,
      rfl, fun hne => absurd horig hne, rfl, ?_⟩
    intro f hf
    rw [horig] at hf
    simp at hf
  · rw [if_neg h0]
    have hInv0 := init_loopInv root fs0 hND hdND hpre
      ((initState fs0).statuses ++ ["Phase 1: Grouping files by similarity..."])
    have hbound : ((get_all_files ({ initState fs0 with
        statuses := (initState fs0).statuses ++
          ["Phase 1: Grouping files by similarity..."] } : SortState).fs
        root).filter (· ∉ ([] : List String))).length <
        (get_all_files fs0 root).length + 1 := by
      have : (get_all_files fs0 root).filter (· ∉ ([] : List String)) =
          get_all_files fs0 root := List.filter_eq_self.mpr (by simp)
      show ((get_all_files fs0 root).filter
        (· ∉ ([] : List String))).length < (get_all_files fs0 root).length + 1
      rw [this]
      omega
    have hspec := sortLoop_spec root fs0 (get_all_files fs0 root)
      (get_all_files fs0 root).length hroot
      ((get_all_files fs0 root).length + 1)
      { initState fs0 with statuses := (initState fs0).statuses ++
          ["Phase 1: Grouping files by similarity..."] }
      [] 0 hInv0 hbound
    have hbridge : ∀ (stL : SortState),
        LoopInv root fs0 (get_all_files fs0 root) stL stL.processed
          stL.processed_count →
        ∀ stM,
        (if media then process_media_files root
            { stL with statuses := stL.statuses ++
                ["Phase 2: Sorting media files..."] }
          else MediaResult.ok stL) = MediaResult.ok stM →
        CoreInv root fs0 stM ∧
        stL.statuses <+: stM.statuses ∧
        stM.processed = stL.processed ∧
        stM.processed_count = stL.processed_count ∧
        (∀ p : FsPath, p.length ≤ root.length + 1 →
          srcCount stM.attempts p = srcCount stL.attempts p ∧
          srcCount stM.moved_files p = srcCount stL.moved_files p ∧
          srcCount stM.successes p = srcCount stL.successes p ∧
          (p ∈ stM.fs.files ↔ p ∈ stL.fs.files)) := by
      intro stL hInvL stM hM
      cases media with
      | false =>
        rw [if_neg (by simp)] at hM
        rw [MediaResult.ok.injEq] at hM
        subst hM
        exact ⟨hInvL.core, List.prefix_refl _, rfl, rfl,
          fun p _ => ⟨rfl, rfl, rfl, Iff.rfl⟩⟩
      | true =>
        rw [if_pos rfl] at hM
        have hcoreL : CoreInv root fs0
            { stL with statuses := stL.statuses ++
                ["Phase 2: Sorting media files..."] } :=
          ⟨hInvL.core.filesND, hInvL.core.moveFailsEq, hInvL.core.dirsND,
            hInvL.core.dirsAppend, hInvL.core.rootPrefixes,
            hInvL.core.recParents, hInvL.core.spec⟩
        obtain ⟨Mcore, Mdirs, Mstat, Mproc, Mpc,
          ⟨newA, Matt, MattP⟩, Mpres⟩ :=
          process_media_files_spec root fs0 _ hcoreL stM hM
        refine ⟨Mcore, List.IsPrefix.trans (List.prefix_append _ _) Mstat,
          Mproc, Mpc, ?_⟩
        intro p hplen
        obtain ⟨hm, hs, hf⟩ := Mpres p hplen
        refine ⟨?_, hm, hs, hf⟩
        rw [Matt]
        show srcCount (stL.attempts ++ newA) p = srcCount stL.attempts p
        rw [srcCount_append_full]
        have : srcCount newA p = 0 := by
          refine srcCount_eq_zero_of_ne newA p ?_
          intro r hr hcon
          obtain ⟨it, f, hfeq, _⟩ := MattP r hr
          have := congrArg List.length hcon
          rw [hfeq] at this
          simp [List.length_append] at this
          omega
        omega
    refine ⟨?_, ?_⟩
    · intro stx h
      split at h
      · rename_i stX heq
        exact absurd heq (hspec.1 stX)
      · simp at h
      · split at h
        · simp at h
        · simp at h
    · intro stF h
      split at h
      · rename_i stX heq
        exact absurd heq (hspec.1 stX)
      · simp at h
      · rename_i stL heq
        obtain ⟨hInvL, hall⟩ := hspec.2 stL heq
        split at h
        · simp at h
        · rename_i stM heq2
          obtain ⟨Mcore, Mstat, Mproc, Mpc, Mpres⟩ :=
            hbridge stL hInvL stM heq2
          rw [RunResult.ok.injEq] at h
          subst h
          refine ⟨⟨Mcore.filesND, Mcore.moveFailsEq, Mcore.dirsND,
            Mcore.dirsAppend, Mcore.rootPrefixes, Mcore.recParents,
            Mcore.spec⟩, rfl, fun _ => ?_, ?_, ?_⟩
          · show (stM.progress ++ [100]).getLast? = some 100
            simp
          · show stM.processed_count = stM.processed.length
            rw [Mpc, Mproc]
            exact hInvL.cntEq
          · intro f hf
            have hflen : (root ++ [f] : FsPath).length ≤ root.length + 1 := by
              simp
            obtain ⟨ha, hm, hs, hff⟩ := Mpres (root ++ [f]) hflen
            have hatt1 : srcCount stL.attempts (root ++ [f]) = 1 :=
              hInvL.att_pr f (hall f hf)
            refine ⟨?_, ?_, ?_, ?_, ?_⟩
            · show f ∈ stM.processed
              rw [Mproc]
              exact hall f hf
            · show srcCount stM.attempts (root ++ [f]) = 1
              rw [ha, hatt1]
            · show srcCount stM.moved_files (root ++ [f]) ≤ 1
              rw [hm]
              have := hInvL.recLe (root ++ [f])
              omega
            · intro hz
              show HasConflictStatus { stM with
                progress := stM.progress ++ [100], finished := true }
              have hz2 : srcCount stL.moved_files (root ++ [f]) = 0 := by
                rw [hm] at hz
                exact hz
              have hlt : srcCount stL.moved_files (root ++ [f]) <
                  srcCount stL.attempts (root ++ [f]) := by
                rw [hz2, hatt1]
                omega
              have hc := hInvL.recEq (root ++ [f]) hlt
              exact conflictStatus_mono Mstat hc
            · intro hz
              show (root ++ [f]) ∈ stM.fs.files
              have hz2 : srcCount stL.successes (root ++ [f]) = 0 := by
                rw [hs] at hz
                exact hz
              exact hff.mpr (hInvL.stay f hf hz2)

/-- One undo step under the conditions produced by a clean run: the file is
present at its recorded location, the original parent exists, the original
path is not a directory, and no move is externally failed. -/
theorem restoreOne_clean (st : SortState) (s c : FsPath)
    (hc : c ∈ st.fs.files) (hpar : s.dropLast ∈ st.fs.dirs)
    (hmf : st.fs.moveFails = []) (hsdir : s ∉ st.fs.dirs) :
    restoreOne st (s, c) =
      { st with
        restores := st.restores ++ [(s, c)],
        fs := { st.fs with
          files := s :: (st.fs.files.erase c).erase s } } := by
  unfold restoreOne
  dsimp only
  rw [if_pos (show pathExists st.fs c from Or.inl hc),
    if_pos (show pathExists st.fs s.dropLast from Or.inr hpar)]
  dsimp only
  unfold shutilMove
  rw [hmf]
  rw [if_neg (by simp)]
  rw [if_neg (not_not_intro hc)]
  rw [if_neg hsdir]

theorem beq_inst_eq (x y : FsPath) :
    (@BEq.beq FsPath instBEqOfDecidableEq x y) = (x == y) := by
  show decide (x = y) = (x == y)
  by_cases h : x = y <;> simp [h]

theorem erase_decEq : ∀ (l : List FsPath) (a : FsPath),
    @List.erase FsPath instBEqOfDecidableEq l a = List.erase l a := by
  intro l a
  induction l with
  | nil => rfl
  | cons b bs ih =>
    simp only [List.erase_cons]
    rw [beq_inst_eq b a, ih]

/-- Replaying a move script backwards restores the original file set (up to
order), provided no recorded original path has become a directory, every
recorded parent directory exists, and no move is externally failed. -/
theorem restoreFold_perm (l0 : List FsPath) (hnd0 : l0.Nodup) :
    ∀ (rs : List (FsPath × FsPath)) (l1 : List FsPath),
      MovesSpec l0 rs l1 →
      ∀ st : SortState,
        st.fs.moveFails = [] →
        st.fs.files.Perm l1 →
        (∀ r ∈ rs, r.1.dropLast ∈ st.fs.dirs) →
        (∀ r ∈ rs, r.1 ∉ st.fs.dirs) →
        (rs.reverse.foldl restoreOne st).fs.files.Perm l0 ∧
        (rs.reverse.foldl restoreOne st).fs.dirs = st.fs.dirs ∧
        (rs.reverse.foldl restoreOne st).fs.moveFails = [] := by
  intro rs l1 h
  induction h with
  | nil =>
    intro st hmf hperm _ _
    exact ⟨hperm, rfl, hmf⟩
  | @snoc lp rs' s c hprev hs hc ih =>
    intro st hmf hperm hpar hsdir
    rw [List.reverse_append, List.reverse_singleton, List.singleton_append,
      List.foldl_cons]
    have hndp : lp.Nodup := movesSpec_nodup hprev hnd0
    have hcmem : c ∈ st.fs.files :=
      hperm.mem_iff.mpr (List.mem_cons_self _ _)
    have hrecmem : ((s, c) : FsPath × FsPath) ∈ rs' ++ [(s, c)] :=
      List.mem_append_right _ (List.mem_singleton.mpr rfl)
    have hstep := restoreOne_clean st s c hcmem (hpar _ hrecmem) hmf
      (hsdir _ hrecmem)
    rw [hstep]
    have h1 : (st.fs.files.erase c).Perm (lp.erase s) := by
      have h2 := hperm.erase c
      rw [erase_decEq, erase_decEq, List.erase_cons_head] at h2
      exact h2
    have hsmem : s ∉ st.fs.files.erase c := by
      intro hmem
      have h4 : s ∈ lp.erase s := h1.mem_iff.mp hmem
      exact absurd h4 hndp.not_mem_erase
    have hfiles2 : (s :: (st.fs.files.erase c).erase s).Perm lp := by
      rw [List.erase_of_not_mem hsmem]
      have h6 := List.perm_cons_erase hs
      rw [erase_decEq] at h6
      exact (h1.cons s).trans h6.symm
    obtain ⟨ih1, ih2, ih3⟩ := ih
      { st with
        restores := st.restores ++ [(s, c)],
        fs := { st.fs with
          files := s :: (st.fs.files.erase c).erase s } }
      hmf hfiles2
      (fun r hr => hpar r (List.mem_append_left _ hr))
      (fun r hr => hsdir r (List.mem_append_left _ hr))
    exact ⟨ih1, ih2, ih3⟩

theorem insertLenDesc_perm (a : FsPath) :
    ∀ l : List FsPath, (insertLenDesc a l).Perm (a :: l) := by
  intro l
  induction l with
  | nil => exact List.Perm.refl _
  | cons b bs ih =>
    rw [insertLenDesc]
    split
    · exact (ih.cons b).trans (List.Perm.swap a b bs)
    · exact List.Perm.refl _

theorem sortByLenDesc_perm (l : List FsPath) : (sortByLenDesc l).Perm l := by
  induction l with
  | nil => exact List.Perm.refl _
  | cons a as ih =>
    show (insertLenDesc a (sortByLenDesc as)).Perm (a :: as)
    exact (insertLenDesc_perm a _).trans (ih.cons a)

theorem insertLenDesc_sorted (a : FsPath) :
    ∀ l : List FsPath,
      List.Pairwise (fun x y : FsPath => y.length ≤ x.length) l →
      List.Pairwise (fun x y : FsPath => y.length ≤ x.length)
        (insertLenDesc a l) := by
  intro l
  induction l with
  | nil =>
    intro _
    exact List.pairwise_singleton _ _
  | cons b bs ih =>
    intro h
    rw [List.pairwise_cons] at h
    rw [insertLenDesc]
    split
    · rename_i hlt
      rw [List.pairwise_cons]
      constructor
      · intro y hy
        have hy2 : y ∈ a :: bs := (insertLenDesc_perm a bs).mem_iff.mp hy
        rcases List.mem_cons.mp hy2 with h1 | h1
        · subst h1
          omega
        · exact h.1 y h1
      · exact ih h.2
    · rename_i hge
      rw [List.pairwise_cons]
      constructor
      · intro y hy
        rcases List.mem_cons.mp hy with h1 | h1
        · subst h1
          omega
        · have := h.1 y h1
          omega
      · rw [List.pairwise_cons]
        exact h

theorem sortByLenDesc_sorted (l : List FsPath) :
    List.Pairwise (fun x y : FsPath => y.length ≤ x.length)
      (sortByLenDesc l) := by
  induction l with
  | nil => exact List.Pairwise.nil
  | cons a as ih => exact insertLenDesc_sorted a _ ih

/-- A directory with no file or directory entry directly inside it lists as
empty. -/
theorem listdirNames_empty (fs : FS) (d : FsPath)
    (hf : ∀ p ∈ fs.files, p.dropLast ≠ d)
    (hd : ∀ q ∈ fs.dirs, q.dropLast ≠ d) :
    (listdirNames fs d).isEmpty = true := by
  unfold listdirNames
  rw [List.isEmpty_iff, List.append_eq_nil]
  constructor
  · rw [List.filterMap_eq_nil]
    intro p hp
    rw [if_neg (hf p hp)]
  · rw [List.filterMap_eq_nil]
    intro q hq
    rw [if_neg (hd q hq)]

/-- The bottom-up pruning pass removes a length-descending batch of
directories that contain no files and no other directories. -/
theorem pruneFold_removes :
    ∀ (ds : List FsPath) (base rem : List FsPath) (fs : FS),
      fs.dirs = base ++ rem →
      rem.Perm ds →
      (base ++ rem).Nodup →
      (∀ p ∈ fs.files, ∀ d ∈ ds, p.dropLast ≠ d) →
      (∀ q ∈ base, ∀ d ∈ ds, q.dropLast ≠ d) →
      List.Pairwise (fun x y : FsPath => y.length ≤ x.length) ds →
      (∀ d ∈ ds, d ≠ []) →
      (ds.foldl
        (fun fs d =>
          if d ∈ fs.dirs ∧ (listdirNames fs d).isEmpty then
            { fs with dirs := fs.dirs.erase d }
          else fs) fs).dirs = base ∧
      (ds.foldl
        (fun fs d =>
          if d ∈ fs.dirs ∧ (listdirNames fs d).isEmpty then
            { fs with dirs := fs.dirs.erase d }
          else fs) fs).files = fs.files := by
  intro ds
  induction ds with
  | nil =>
    intro base rem fs hdirs hperm _ _ _ _ _
    have : rem = [] := hperm.eq_nil
    subst this
    rw [List.foldl_nil, hdirs, List.append_nil]
    exact ⟨rfl, rfl⟩
  | cons d tail ih =>
    intro base rem fs hdirs hperm hnd hfiles hbase hsort hne
    rw [List.foldl_cons]
    have hdrem : d ∈ rem := hperm.mem_iff.mpr (List.mem_cons_self _ _)
    have hdmem : d ∈ fs.dirs := by
      rw [hdirs]
      exact List.mem_append_right _ hdrem
    have hdnotbase : d ∉ base := by
      intro hmem
      exact (List.disjoint_of_nodup_append hnd) hmem hdrem
    have hdne : d ≠ [] := hne d (List.mem_cons_self _ _)
    rw [List.pairwise_cons] at hsort
    have hempty : (listdirNames fs d).isEmpty = true := by
      refine listdirNames_empty fs d
        (fun p hp => hfiles p hp d (List.mem_cons_self _ _)) ?_
      intro q hq hcon
      rw [hdirs] at hq
      rcases List.mem_append.mp hq with h1 | h1
      · exact hbase q h1 d (List.mem_cons_self _ _) hcon
      · have hq2 : q ∈ d :: tail := hperm.mem_iff.mp h1
        rcases List.mem_cons.mp hq2 with h2 | h2
        · subst h2
          have := congrArg List.length hcon
          rw [List.length_dropLast] at this
          have hpos : 0 < q.length := List.length_pos.mpr hdne
          omega
        · have hlen := hsort.1 q h2
          have := congrArg List.length hcon
          rw [List.length_dropLast] at this
          have hpos : 0 < d.length := List.length_pos.mpr hdne
          omega
    rw [if_pos ⟨hdmem, hempty⟩]
    have herase : fs.dirs.erase d = base ++ rem.erase d := by
      rw [hdirs, List.erase_append_right _ hdnotbase]
    have hperm2 : (rem.erase d).Perm tail := by
      have h1 := hperm.erase d
      rw [erase_decEq, erase_decEq, List.erase_cons_head] at h1
      exact h1
    have hnd2 : (base ++ rem.erase d).Nodup := by
      refine List.Nodup.sublist ?_ hnd
      exact List.Sublist.append_left (List.erase_sublist d rem) base
    obtain ⟨ih1, ih2⟩ := ih base (rem.erase d)
      { fs with dirs := fs.dirs.erase d } herase hperm2 hnd2
      (fun p hp e he => hfiles p hp e (List.mem_cons_of_mem _ he))
      (fun q hq e he => hbase q hq e (List.mem_cons_of_mem _ he))
      hsort.2
      (fun e he => hne e (List.mem_cons_of_mem _ he))
    exact ⟨ih1, ih2⟩

theorem mem_pathPrefixes_eq_take {root q : FsPath}
    (h : q ∈ pathPrefixes root) : ∃ i < root.length, q = root.take (i + 1) := by
  unfold pathPrefixes at h
  rw [List.mem_map] at h
  obtain ⟨i, hi, hq⟩ := h
  rw [List.mem_range] at hi
  exact ⟨i, hi, hq.symm⟩

theorem prefix_mem_pathPrefixes_root {root q : FsPath}
    (h : q ∈ pathPrefixes root) (hpre : root <+: q) : q = root := by
  obtain ⟨i, hi, rfl⟩ := mem_pathPrefixes_eq_take h
  have h1 : (root.take (i + 1)).length = i + 1 := by
    rw [List.length_take]
    omega
  have h2 := hpre.length_le
  rw [h1] at h2
  have h3 : i + 1 = root.length := by omega
  rw [h3, List.take_length]

theorem mem_pathPrefixes_length_le {root q : FsPath}
    (h : q ∈ pathPrefixes root) : q.length ≤ root.length := by
  obtain ⟨i, hi, rfl⟩ := mem_pathPrefixes_eq_take h
  rw [List.length_take]
  omega

theorem proper_prefix_length_lt {root d : FsPath} (hpre : root <+: d)
    (hne : d ≠ root) : root.length < d.length := by
  rcases Nat.lt_or_ge root.length d.length with h | h
  · exact h
  · exfalso
    have heq : root.length = d.length :=
      Nat.le_antisymm hpre.length_le h
    exact hne (hpre.eq_of_length heq).symm

/-- Sorting followed by undoing restores the original root contents exactly,
whenever the run kept its core invariant, no recorded original path ended up
shadowed by a created folder, the original folder held only direct files,
and no external move failures occur. -/
theorem sort_undo_roundtrip (root : FsPath) (fs0 : FS) (stF : SortState)
    (hND : fs0.files.Nodup)
    (hdirs0 : fs0.dirs = pathPrefixes root)
    (hmf : fs0.moveFails = [])
    (hflat : ∀ p ∈ fs0.files, p.dropLast = root)
    (hcore : CoreInv root fs0 stF)
    (hnodirclash : ∀ r ∈ stF.moved_files, r.1 ∉ stF.fs.dirs) :
    (undo_sorting root stF).fs.files.Perm fs0.files ∧
    (undo_sorting root stF).fs.dirs = fs0.dirs := by
  have hspec := hcore.spec hmf
  have hmfF : stF.fs.moveFails = [] := by rw [hcore.moveFailsEq, hmf]
  obtain ⟨created, hcr, hcrP⟩ := hcore.dirsAppend
  obtain ⟨hr1, hr2, _⟩ := restoreFold_perm fs0.files hND stF.moved_files
    stF.fs.files hspec stF hmfF (List.Perm.refl _) hcore.recParents
    hnodirclash
  unfold undo_sorting
  dsimp only
  have hdirs1 : (stF.moved_files.reverse.foldl restoreOne stF).fs.dirs =
      fs0.dirs ++ created := by
    rw [hr2, hcr]
  have hfilter : ((stF.moved_files.reverse.foldl restoreOne
      stF).fs.dirs.filter fun d => d ≠ root && root.isPrefixOf d) =
      created := by
    rw [hdirs1, List.filter_append]
    have hbase : (fs0.dirs.filter fun d => d ≠ root && root.isPrefixOf d) =
        [] := by
      rw [List.filter_eq_nil]
      intro q hq
      rw [hdirs0] at hq
      rw [Bool.and_eq_true, not_and]
      intro _
      cases hb : root.isPrefixOf q
      · simp
      · exfalso
        have hqr : q = root := prefix_mem_pathPrefixes_root hq
          (List.isPrefixOf_iff_prefix.mp hb)
        subst hqr
        simp at *
    have hcreated : (created.filter fun d =>
        d ≠ root && root.isPrefixOf d) = created := by
      rw [List.filter_eq_self]
      intro d hd
      obtain ⟨h1, h2⟩ := hcrP d hd
      rw [Bool.and_eq_true]
      constructor
      · simpa using h1
      · exact List.isPrefixOf_iff_prefix.mpr h2
    rw [hbase, hcreated, List.nil_append]
  refine ⟨?_, ?_⟩
  · rw [(pruneEmptyDirs_spec root
      (stF.moved_files.reverse.foldl restoreOne stF).fs).1]
    exact hr1
  · show (pruneEmptyDirs root
      (stF.moved_files.reverse.foldl restoreOne stF).fs).dirs = fs0.dirs
    unfold pruneEmptyDirs
    rw [hfilter]
    refine (pruneFold_removes (sortByLenDesc created) fs0.dirs created _
      hdirs1 (sortByLenDesc_perm created).symm ?_ ?_ ?_
      (sortByLenDesc_sorted created) ?_).1
    · rw [← hcr]
      exact hcore.dirsND
    · intro p hp d hd
      have hpf : p ∈ fs0.files := hr1.mem_iff.mp hp
      have hdc : d ∈ created := (sortByLenDesc_perm created).mem_iff.mp hd
      rw [hflat p hpf]
      exact fun hcon => (hcrP d hdc).1 hcon.symm
    · intro q hq d hd
      have hdc : d ∈ created := (sortByLenDesc_perm created).mem_iff.mp hd
      obtain ⟨h1, h2⟩ := hcrP d hdc
      have hlt : root.length < d.length := proper_prefix_length_lt h2 h1
      rw [hdirs0] at hq
      have hle := mem_pathPrefixes_length_le hq
      intro hcon
      have := congrArg List.length hcon
      rw [List.length_dropLast] at this
      omega
    · intro d hd
      have hdc : d ∈ created := (sortByLenDesc_perm created).mem_iff.mp hd
      obtain ⟨h1, h2⟩ := hcrP d hdc
      have hlt : root.length < d.length := proper_prefix_length_lt h2 h1
      intro hcon
      rw [hcon] at hlt
      simp at hlt

/-! ## Evaluated runs of the concrete scenarios -/

theorem exhaustRun_eq : runSort ["R"] false fsExhaust = .ok stExhaust := by
  decide

theorem cleanRun_eq : runSort ["R"] false fsClean = .ok stCleanRun := by
  decide

theorem miscRun_eq : runSort ["R"] false fsMisc = .ok stMiscRun := by
  decide

theorem mediaRun_eq : runSort ["R"] true fsMedia = .ok stMediaRun := by
  decide

theorem miscFileRun_eq :
    runSort ["R"] false fsMiscFile = .crash stMiscFileCrash := by
  decide

theorem mediaWRun_eq :
    process_media_files ["R"] (initState fsMediaW) = .ok stMediaWRun := by
  decide

/-! ## The claims -/

/-- C3 (corrected): on a collision the mover returns the first unused
conflict candidate in numeric probe order `-CF1, -CF2, …, -CF99` — the
smallest unused index, not the lexicographically-first unused name — then
records the pair and performs the move, provided the underlying move does
not itself fail. -/
theorem C3_numeric_probe_order (st : SortState) (src dst : FsPath) (i : Nat)
    (hdst : pathExists st.fs dst) (hi1 : 1 ≤ i) (hi99 : i ≤ 99)
    (hfree : ¬ pathExists st.fs (cfPath dst i))
    (hmin : ∀ j, 1 ≤ j → j < i → pathExists st.fs (cfPath dst j))
    (hsrc : src ∈ st.fs.files)
    (hmf : (src, cfPath dst i) ∉ st.fs.moveFails) :
    (move_file_handling_conflicts st src dst).2 = some (cfPath dst i) ∧
    (move_file_handling_conflicts st src dst).1.moved_files =
      st.moved_files ++ [(src, cfPath dst i)] ∧
    (move_file_handling_conflicts st src dst).1.fs.files =
      cfPath dst i :: st.fs.files.erase src := by
  obtain ⟨h1, h2, h3, _⟩ :=
    mfhc_numeric_first_free st src dst i hdst hi1 hi99 hfree hmin hsrc hmf
  exact ⟨h1, h2, h3⟩

/-- C3 witness: with `x.txt` and `x-CF1.txt` occupied, the mover puts
`s.x` at the free index-2 candidate `x-CF2.txt`. -/
theorem C3_numeric_probe_order_witness :
    pathExists (initState fsConflict).fs (["R", "G", "x.txt"] : FsPath) ∧
    ((move_file_handling_conflicts (initState fsConflict) ["R", "s.x"]
        ["R", "G", "x.txt"]).2 = some (cfPath ["R", "G", "x.txt"] 2) ∧
      (move_file_handling_conflicts (initState fsConflict) ["R", "s.x"]
        ["R", "G", "x.txt"]).1.moved_files =
        (initState fsConflict).moved_files ++
          [(["R", "s.x"], cfPath ["R", "G", "x.txt"] 2)] ∧
      (move_file_handling_conflicts (initState fsConflict) ["R", "s.x"]
        ["R", "G", "x.txt"]).1.fs.files =
        cfPath ["R", "G", "x.txt"] 2 ::
          (initState fsConflict).fs.files.erase ["R", "s.x"]) :=
  ⟨by decide,
    C3_numeric_probe_order (initState fsConflict) ["R", "s.x"]
      ["R", "G", "x.txt"] 2 (by decide) (by decide) (by decide) (by decide)
      (fun j hj1 hj2 => by
        have hj : j = 1 := by omega
        subst hj
        decide)
      (by decide) (by decide)⟩

/-- C3 counterexample: the returned candidate `x-CF2.txt` is not the
lexicographically-first unused one — the unused `x-CF10.txt` sorts before
it. -/
theorem C3_counterexample :
    (move_file_handling_conflicts (initState fsConflict) ["R", "s.x"]
      ["R", "G", "x.txt"]).2 = some ["R", "G", "x-CF2.txt"] ∧
    cfPath ["R", "G", "x.txt"] 10 = ["R", "G", "x-CF10.txt"] ∧
    ¬ pathExists fsConflict ["R", "G", "x-CF10.txt"] ∧
    pathToString ["R", "G", "x-CF10.txt"] <
      pathToString ["R", "G", "x-CF2.txt"] ∧
    ¬ IsLexFirstFreeCF fsConflict ["R", "G", "x.txt"]
      ["R", "G", "x-CF2.txt"] := by
  have hlt : pathToString ["R", "G", "x-CF10.txt"] <
      pathToString ["R", "G", "x-CF2.txt"] := by
    rw [String.lt_iff_toList_lt]
    decide
  refine ⟨by decide, by decide, by decide, hlt, ?_⟩
  intro hlex
  exact absurd hlt
    (hlex.2.2 ["R", "G", "x-CF10.txt"] ⟨10, by decide, by decide, by decide⟩
      (by decide))

/-- C4 (corrected): the mover has two failure modes.  On conflict
exhaustion (destination and all 99 candidates occupied): no move, no
record, a status message.  On an underlying `shutil.move` failure: no
filesystem change — but, unlike the claim, the record has already been
appended to the move log before the move was attempted. -/
theorem C4_failure_modes :
    (∀ (st : SortState) (src dst : FsPath), pathExists st.fs dst →
      (∀ i, 1 ≤ i → i ≤ 99 → pathExists st.fs (cfPath dst i)) →
      (move_file_handling_conflicts st src dst).2 = none ∧
      (move_file_handling_conflicts st src dst).1.fs = st.fs ∧
      (move_file_handling_conflicts st src dst).1.moved_files =
        st.moved_files ∧
      (move_file_handling_conflicts st src dst).1.successes = st.successes ∧
      (move_file_handling_conflicts st src dst).1.statuses =
        st.statuses ++ ["Too many conflicts for " ++ pathToString dst]) ∧
    (∀ (st : SortState) (src dst : FsPath), ¬ pathExists st.fs dst →
      ((src, dst) ∈ st.fs.moveFails ∨ src ∉ st.fs.files) →
      (move_file_handling_conflicts st src dst).2 = none ∧
      (move_file_handling_conflicts st src dst).1.fs = st.fs ∧
      (move_file_handling_conflicts st src dst).1.moved_files =
        st.moved_files ++ [(src, dst)] ∧
      (move_file_handling_conflicts st src dst).1.successes =
        st.successes) :=
  mfhc_failure_spec

/-- C4 counterexample: when the underlying move fails, the operation is not
a no-op for the log — the record is appended even though nothing moved. -/
theorem C4_counterexample :
    (move_file_handling_conflicts (initState fsMoveFail) ["R", "a.txt"]
      ["R", "G", "a.txt"]).2 = none ∧
    (move_file_handling_conflicts (initState fsMoveFail) ["R", "a.txt"]
      ["R", "G", "a.txt"]).1.fs = fsMoveFail ∧
    (move_file_handling_conflicts (initState fsMoveFail) ["R", "a.txt"]
      ["R", "G", "a.txt"]).1.moved_files =
      [(["R", "a.txt"], ["R", "G", "a.txt"])] := by
  refine ⟨by decide, by decide, by decide⟩

/-- C5 (corrected): whenever difflib autojunk is inactive for the second
base name (no popular characters — always the case below 200 characters),
`find_common_sequence` examines a longest common contiguous substring of
the two lowered, extension-stripped base names and returns it exactly when
it has length ≥ 4 and contains a run of 4 alphanumeric characters. -/
theorem C5_longest_common_substring (str1 str2 : String)
    (hpop : popularChars (lowerStr (splitextName str2).1).data = []) :
    ∃ s : List Char,
      s <:+: (lowerStr (splitextName str1).1).data ∧
      s <:+: (lowerStr (splitextName str2).1).data ∧
      (∀ t : List Char,
        t <:+: (lowerStr (splitextName str1).1).data →
        t <:+: (lowerStr (splitextName str2).1).data →
        t.length ≤ s.length) ∧
      find_common_sequence str1 str2 =
        (if 4 ≤ s.length ∧ hasAlnumRun4 s = true then some (String.mk s)
         else none) :=
  find_common_sequence_spec str1 str2 hpop

/-- C5 witness: the specified behaviour at the two examples of the claim,
via the general contract for the vacation pair. -/
theorem C5_longest_common_substring_witness :
    popularChars
      (lowerStr (splitextName "vacation_trip_02.png").1).data = [] ∧
    find_common_sequence "vacation_trip_01.jpg" "vacation_trip_02.png" =
      some "vacation_trip_0" ∧
    "vacation_trip".data <:+: "vacation_trip_0".data ∧
    find_common_sequence "a.jpg" "b.jpg" = none ∧
    (∃ s : List Char,
      s <:+: (lowerStr (splitextName "vacation_trip_01.jpg").1).data ∧
      s <:+: (lowerStr (splitextName "vacation_trip_02.png").1).data ∧
      (∀ t : List Char,
        t <:+: (lowerStr (splitextName "vacation_trip_01.jpg").1).data →
        t <:+: (lowerStr (splitextName "vacation_trip_02.png").1).data →
        t.length ≤ s.length) ∧
      find_common_sequence "vacation_trip_01.jpg" "vacation_trip_02.png" =
        (if 4 ≤ s.length ∧ hasAlnumRun4 s = true then some (String.mk s)
         else none)) :=
  ⟨by decide, by decide, by decide, by decide,
    C5_longest_common_substring "vacation_trip_01.jpg"
      "vacation_trip_02.png" (by decide)⟩

/-- C5 counterexample: with a 200-character second name the autojunk
heuristic suppresses the match — the common length-4 alphanumeric substring
"xxxx" is not returned. -/
theorem C5_counterexample :
    "xxxx".data <:+: (lowerStr (splitextName "XXXX").1).data ∧
    "xxxx".data <:+: (lowerStr (splitextName longName).1).data ∧
    hasAlnumRun4 "xxxx".data = true ∧
    find_common_sequence "XXXX" longName = none := by
  refine ⟨by decide, by decide, by decide, by decide⟩

/-- C7 (corrected): undo on an empty move log performs no file moves and
still emits the completion signal, but it is not free of filesystem
mutation — the empty-folder prune still runs and can delete (only existing)
directories below the root. -/
theorem C7_empty_log_undo (root : FsPath) (st : SortState)
    (h : st.moved_files = []) :
    (undoThreadRun root st).1.fs.files = st.fs.files ∧
    List.Sublist (undoThreadRun root st).1.fs.dirs st.fs.dirs ∧
    (undoThreadRun root st).1.moved_files = [] ∧
    (undoThreadRun root st).2 = true :=
  undo_empty_log_spec root st h

/-- C7 witness: undo of a fresh engine over a root with one empty subfolder
moves no file and emits completion. -/
theorem C7_empty_log_undo_witness :
    (initState fsEmptySub).moved_files = [] ∧
    ((undoThreadRun ["R"] (initState fsEmptySub)).1.fs.files =
      (initState fsEmptySub).fs.files ∧
    List.Sublist (undoThreadRun ["R"] (initState fsEmptySub)).1.fs.dirs
      (initState fsEmptySub).fs.dirs ∧
    (undoThreadRun ["R"] (initState fsEmptySub)).1.moved_files = [] ∧
    (undoThreadRun ["R"] (initState fsEmptySub)).2 = true) :=
  ⟨rfl, C7_empty_log_undo ["R"] (initState fsEmptySub) rfl⟩

/-- C7 counterexample: the same undo deletes the pre-existing empty
subfolder, so it does mutate the filesystem. -/
theorem C7_counterexample :
    (initState fsEmptySub).moved_files = [] ∧
    (undoThreadRun ["R"] (initState fsEmptySub)).2 = true ∧
    (undoThreadRun ["R"] (initState fsEmptySub)).1.fs.dirs ≠
      fsEmptySub.dirs := by
  refine ⟨by decide, by decide, by decide⟩

/-- C8 (corrected): the undo replays the move log in reverse but never
consumes it — `moved_files` is unchanged when `undo_sorting` returns. -/
theorem C8_log_not_consumed (root : FsPath) (st : SortState) :
    (undo_sorting root st).moved_files = st.moved_files :=
  undo_sorting_preserves_log root st

/-- C8 counterexample: a replayed record (it appears in the restore list)
is still in the move log afterwards. -/
theorem C8_counterexample :
    stPreloaded.moved_files ≠ [] ∧
    (undo_sorting ["R"] stPreloaded).restores = stPreloaded.moved_files ∧
    (undo_sorting ["R"] stPreloaded).moved_files =
      stPreloaded.moved_files := by
  refine ⟨by decide, by decide, by decide⟩

/-- C9 (corrected): the media pass moves files only from inside top-level
subfolders of the root that exist when the pass starts and are not named
"Images"/"Videos" — including subfolders that pre-existed the run and were
not produced by the grouping phase — and it never adds or removes an entry
directly under the root. -/
theorem C9_media_scope (root : FsPath) (fs0 : FS) (st st2 : SortState)
    (hcore : CoreInv root fs0 st)
    (h : process_media_files root st = .ok st2) :
    (∃ newA, st2.attempts = st.attempts ++ newA ∧
      ∀ r ∈ newA, ∃ item f, r.1 = (root ++ [item]) ++ [f] ∧
        (root ++ [item]) ∈ st.fs.dirs ∧
        item ≠ "Images" ∧ item ≠ "Videos") ∧
    (∀ p : FsPath, p.length ≤ root.length + 1 →
      (p ∈ st2.fs.files ↔ p ∈ st.fs.files)) := by
  obtain ⟨_, _, _, _, _, hatt, hpres⟩ :=
    process_media_files_spec root fs0 st hcore st2 h
  exact ⟨hatt, fun p hp => (hpres p hp).2.2⟩

/-- C9 witness: the media pass over a root holding one pre-existing
subfolder with an image. -/
theorem C9_media_scope_witness :
    process_media_files ["R"] (initState fsMediaW) = .ok stMediaWRun ∧
    ((∃ newA, stMediaWRun.attempts =
        (initState fsMediaW).attempts ++ newA ∧
        ∀ r ∈ newA, ∃ item f, r.1 = ((["R"] : FsPath) ++ [item]) ++ [f] ∧
          ((["R"] : FsPath) ++ [item]) ∈ (initState fsMediaW).fs.dirs ∧
          item ≠ "Images" ∧ item ≠ "Videos") ∧
      (∀ p : FsPath, p.length ≤ (["R"] : FsPath).length + 1 →
        (p ∈ stMediaWRun.fs.files ↔ p ∈ (initState fsMediaW).fs.files))) :=
  ⟨mediaWRun_eq,
    C9_media_scope ["R"] fsMediaW (initState fsMediaW) stMediaWRun
      ⟨by decide, rfl, by decide, ⟨[], by decide, by decide⟩, by decide,
        by decide, fun _ => MovesSpec.nil _⟩
      mediaWRun_eq⟩

/-- C9 counterexample: a completed run with media split enabled moves a
file out of a subfolder that existed before the run — one the grouping
phase did not produce. -/
theorem C9_counterexample :
    ["R", "Old"] ∈ fsMedia.dirs ∧
    runSort ["R"] true fsMedia = .ok stMediaRun ∧
    ["R", "Old", "x.jpg"] ∈ fsMedia.files ∧
    ["R", "Old", "Images", "x.jpg"] ∈ stMediaRun.fs.files := by
  refine ⟨by decide, mediaRun_eq, by decide, by decide⟩

/-- C1 (corrected): on a completed run every filename that existed directly
under the root at run start is attempted exactly once (so no file is moved
twice in the grouping phase) and appears in at most one move record — in
none exactly when a "Too many conflicts" status was emitted for it, so
"exactly one" does not hold in general. -/
theorem C1_record_per_root_file (root : FsPath) (media : Bool) (fs0 : FS)
    (stF : SortState) (f : String)
    (hroot : root ≠ []) (hND : fs0.files.Nodup) (hdND : fs0.dirs.Nodup)
    (hpre : ∀ q ∈ pathPrefixes root, q ∈ fs0.dirs)
    (hrun : runSort root media fs0 = .ok stF)
    (hf : f ∈ get_all_files fs0 root) :
    srcCount stF.attempts (root ++ [f]) = 1 ∧
    srcCount stF.moved_files (root ++ [f]) ≤ 1 ∧
    (srcCount stF.moved_files (root ++ [f]) = 0 →
      HasConflictStatus stF) := by
  obtain ⟨_, _, _, _, hfile⟩ :=
    (runSort_ok_spec root media fs0 hroot hND hdND hpre).2 stF hrun
  obtain ⟨_, h1, h2, h3, _⟩ := hfile f hf
  exact ⟨h1, h2, h3⟩

/-- C1 witness: a clean three-file run records each root file once. -/
theorem C1_record_per_root_file_witness :
    runSort ["R"] false fsClean = .ok stCleanRun ∧
    "zzzz" ∈ get_all_files fsClean ["R"] ∧
    (srcCount stCleanRun.attempts ((["R"] : FsPath) ++ ["zzzz"]) = 1 ∧
      srcCount stCleanRun.moved_files ((["R"] : FsPath) ++ ["zzzz"]) ≤ 1 ∧
      (srcCount stCleanRun.moved_files ((["R"] : FsPath) ++ ["zzzz"]) = 0 →
        HasConflictStatus stCleanRun)) :=
  ⟨cleanRun_eq, by decide,
    C1_record_per_root_file ["R"] false fsClean stCleanRun "zzzz"
      (by decide) (by decide) (by decide) (by decide) cleanRun_eq
      (by decide)⟩

/-- C1 counterexample: a completed run in which a root file whose conflict
candidates are exhausted ends with no record at all. -/
theorem C1_counterexample :
    runSort ["R"] false fsExhaust = .ok stExhaust ∧
    "abcd1.x" ∈ get_all_files fsExhaust ["R"] ∧
    srcCount stExhaust.moved_files ["R", "abcd1.x"] = 0 := by
  refine ⟨exhaustRun_eq, by decide, by decide⟩

/-- C6 (corrected): no run stops for lack of loop iterations, and a
normally completed run reports completion — the finished flag is set and,
when any file was present, a final 100 progress value is emitted; but a run
can abort without reporting when `os.makedirs` raises on a folder/file name
collision. -/
theorem C6_completion_report (root : FsPath) (media : Bool) (fs0 : FS)
    (stF : SortState)
    (hroot : root ≠ []) (hND : fs0.files.Nodup) (hdND : fs0.dirs.Nodup)
    (hpre : ∀ q ∈ pathPrefixes root, q ∈ fs0.dirs)
    (hrun : runSort root media fs0 = .ok stF) :
    (∀ stx, runSort root media fs0 ≠ RunResult.outOfFuel stx) ∧
    stF.finished = true ∧
    (get_all_files fs0 root ≠ [] →
      stF.progress.getLast? = some 100) := by
  obtain ⟨hnf, hok⟩ := runSort_ok_spec root media fs0 hroot hND hdND hpre
  obtain ⟨_, h1, h2, _⟩ := hok stF hrun
  exact ⟨hnf, h1, h2⟩

/-- C6 witness: the clean three-file run completes and reports. -/
theorem C6_completion_report_witness :
    runSort ["R"] false fsClean = .ok stCleanRun ∧
    get_all_files fsClean ["R"] ≠ [] ∧
    ((∀ stx, runSort ["R"] false fsClean ≠ RunResult.outOfFuel stx) ∧
      stCleanRun.finished = true ∧
      (get_all_files fsClean ["R"] ≠ [] →
        stCleanRun.progress.getLast? = some 100)) :=
  ⟨cleanRun_eq, by decide,
    C6_completion_report ["R"] false fsClean stCleanRun (by decide)
      (by decide) (by decide) (by decide) cleanRun_eq⟩

/-- C6 counterexample: a run over a root whose only file is named
"Miscellaneous" aborts on the uncaught `os.makedirs` exception, with no
finished signal and no 100% progress. -/
theorem C6_counterexample :
    runSort ["R"] false fsMiscFile = .crash stMiscFileCrash ∧
    stMiscFileCrash.finished = false ∧
    100 ∉ stMiscFileCrash.progress := by
  refine ⟨miscFileRun_eq, by decide, by decide⟩

/-- C10 (confirmed): a root file whose move attempt fails is still added to
the processed set and counted, is never attempted again within the run, and
remains directly under the root when the run completes (any file with no
successful move does). -/
theorem C10_failed_file_processed (root : FsPath) (media : Bool) (fs0 : FS)
    (stF : SortState) (f : String)
    (hroot : root ≠ []) (hND : fs0.files.Nodup) (hdND : fs0.dirs.Nodup)
    (hpre : ∀ q ∈ pathPrefixes root, q ∈ fs0.dirs)
    (hrun : runSort root media fs0 = .ok stF)
    (hf : f ∈ get_all_files fs0 root) :
    f ∈ stF.processed ∧
    stF.processed_count = stF.processed.length ∧
    srcCount stF.attempts (root ++ [f]) = 1 ∧
    (srcCount stF.successes (root ++ [f]) = 0 →
      (root ++ [f]) ∈ stF.fs.files) := by
  obtain ⟨_, _, _, hcnt, hfile⟩ :=
    (runSort_ok_spec root media fs0 hroot hND hdND hpre).2 stF hrun
  obtain ⟨h0, h1, _, _, h4⟩ := hfile f hf
  exact ⟨h0, hcnt, h1, h4⟩

/-- C10 witness: in the conflict-exhaustion run, `abcd1.x` is never moved
(no success record) yet is processed, counted, attempted once, and still
sits directly under the root at the end. -/
theorem C10_failed_file_processed_witness :
    runSort ["R"] false fsExhaust = .ok stExhaust ∧
    "abcd1.x" ∈ get_all_files fsExhaust ["R"] ∧
    srcCount stExhaust.successes ((["R"] : FsPath) ++ ["abcd1.x"]) = 0 ∧
    ("abcd1.x" ∈ stExhaust.processed ∧
      stExhaust.processed_count = stExhaust.processed.length ∧
      srcCount stExhaust.attempts ((["R"] : FsPath) ++ ["abcd1.x"]) = 1 ∧
      (srcCount stExhaust.successes ((["R"] : FsPath) ++ ["abcd1.x"]) = 0 →
        ((["R"] : FsPath) ++ ["abcd1.x"]) ∈ stExhaust.fs.files)) :=
  ⟨exhaustRun_eq, by decide, by decide,
    C10_failed_file_processed ["R"] false fsExhaust stExhaust "abcd1.x"
      (by decide) (by decide) (by decide) (by decide) exhaustRun_eq
      (by decide)⟩

/-- C2 (corrected): the sort-then-undo round trip restores exactly the
original files and folders when the run is a completed media-disabled run
over a root of direct regular files (the root directory chain being the
only directories), no external move failure occurs, and no recorded
original path is shadowed by a folder the run created; without the last
condition a root file named like a created folder is restored into that
folder instead of over it. -/
theorem C2_sort_undo_roundtrip (root : FsPath) (fs0 : FS) (stF : SortState)
    (hroot : root ≠ []) (hND : fs0.files.Nodup)
    (hdirs0 : fs0.dirs = pathPrefixes root)
    (hmf : fs0.moveFails = [])
    (hflat : ∀ p ∈ fs0.files, p.dropLast = root)
    (hrun : runSort root false fs0 = .ok stF)
    (hnoclash : ∀ r ∈ stF.moved_files, r.1 ∉ stF.fs.dirs) :
    (undo_sorting root stF).fs.files.Perm fs0.files ∧
    (undo_sorting root stF).fs.dirs = fs0.dirs := by
  have hdND : fs0.dirs.Nodup := by
    rw [hdirs0]
    exact pathPrefixes_nodup root
  have hpre : ∀ q ∈ pathPrefixes root, q ∈ fs0.dirs := by
    rw [hdirs0]
    exact fun q hq => hq
  have hcore : CoreInv root fs0 stF :=
    ((runSort_ok_spec root false fs0 hroot hND hdND hpre).2 stF hrun).1
  refine (sort_undo_roundtrip root fs0 stF hND hdirs0 hmf ?_ hcore
    hnoclash)
  intro p hp
  exact hflat p hp

/-- C2 witness: the clean three-file run undoes to exactly the original
root. -/
theorem C2_sort_undo_roundtrip_witness :
    runSort ["R"] false fsClean = .ok stCleanRun ∧
    (∀ r ∈ stCleanRun.moved_files, r.1 ∉ stCleanRun.fs.dirs) ∧
    ((undo_sorting ["R"] stCleanRun).fs.files.Perm fsClean.files ∧
      (undo_sorting ["R"] stCleanRun).fs.dirs = fsClean.dirs) :=
  ⟨cleanRun_eq, by decide,
    C2_sort_undo_roundtrip ["R"] fsClean stCleanRun (by decide) (by decide)
      (by decide) (by decide) (by decide) cleanRun_eq (by decide)⟩

/-- C2 counterexample: a completed run over a root holding a file named
"Miscellaneous": after undo the file is gone from the root, nested inside a
leftover folder of the same name. -/
theorem C2_counterexample :
    runSort ["R"] false fsMisc = .ok stMiscRun ∧
    ["R", "Miscellaneous"] ∈ fsMisc.files ∧
    ["R", "Miscellaneous"] ∉ (undo_sorting ["R"] stMiscRun).fs.files ∧
    ["R", "Miscellaneous"] ∈ (undo_sorting ["R"] stMiscRun).fs.dirs ∧
    ["R", "Miscellaneous", "Miscellaneous"] ∈
      (undo_sorting ["R"] stMiscRun).fs.files := by
  refine ⟨miscRun_eq, by decide, by decide, by decide, by decide⟩
